import Mathlib

/-!
# The metadata cache of the Kafka client (`metadata_cache.go`)

A shallow embedding of `metadataCache` and of its operations `leader`, `any`,
`partitions`, `refreshTopics` and `refreshTopic`, followed by the properties
established about them.

Modelling conventions.
* A Go `map[K]V` is a finite map `AList` (an association list without
  duplicate keys).  A lookup on an absent key yields Go's zero value: `nil` for
  the inner map and for `*Broker`, `0` for `int32`.
* `nil` results (`*Broker`, `[]int32`, `error`) are `none`.
* `int32` values are integers; the cache performs no arithmetic on them.
* The order in which Go ranges over a map is unspecified: where the result of
  the code depends on it, the order is an explicit argument (`pick`).
* The network (`Broker.Send`, `Broker.Connect`) is an explicit environment,
  and `refreshTopics` records the lock operations and network calls it
  performs, in program order.
-/

namespace kafka

/-- Modelled from the spec: the protocol's error code type `KError`, declared
outside `metadata_cache.go`; an integer code. -/
abbrev KError := Int

/-- Modelled from the spec: the reserved code `NO_ERROR` that "distinguishes
success from" topic-level and partition-level failures; declared outside
`metadata_cache.go`. -/
def NO_ERROR : KError := 0

/-- The values of Go's `error` interface that reach the cache: `OutOfBrokers{}`,
a protocol error code returned as an error, or an error of the connection
layer. -/
inductive GoError where
  | OutOfBrokers : GoError
  | Protocol (code : KError) : GoError
  | Network (msg : String) : GoError
deriving DecidableEq, Repr

/-- Modelled from the spec: the `Broker` type (the spec's Node: "identity =
integer id, network address"), declared outside `metadata_cache.go`. -/
structure Broker where
  id : Int
  host : String
  port : Int
deriving DecidableEq, Repr

/-- Modelled from the spec: an element of `topic.Partitions` in a
`MetadataResponse` (`{id, errorCode, leaderId}`); the cache reads `Err`, `Id`
and `Leader`. -/
structure PartitionMetadata where
  Err : KError
  Id : Int
  Leader : Int
deriving DecidableEq, Repr

/-- Modelled from the spec: an element of `response.Topics`
(`{name, errorCode, partitions}`); the cache reads `Err`, `Name` and
`Partitions`. -/
structure TopicMetadata where
  Err : KError
  Name : String
  Partitions : List PartitionMetadata
deriving DecidableEq, Repr

/-- Modelled from the spec: `MetadataResponse{ nodes, topics }`; the cache reads
`Brokers` and `Topics`. -/
structure MetadataResponse where
  Brokers : List Broker
  Topics : List TopicMetadata
deriving DecidableEq, Repr

/-- The type `map[int32]*Broker`. -/
abbrev BrokerMap := AList (fun _ : Int => Broker)

/-- The type `map[int32]int32`: partition ids to broker ids. -/
abbrev PartitionMap := AList (fun _ : Int => Int)

/-- The type `map[string]map[int32]int32`. -/
abbrev LeaderMap := AList (fun _ : String => PartitionMap)

/-- The struct `metadataCache`: `client` is represented by the client id (the
only field of the client the cache reads); the lock is represented by the lock
events of `Event`. -/
structure metadataCache where
  client : String
  brokers : BrokerMap
  leaders : LeaderMap
deriving DecidableEq

/-- What a call does besides computing: operations on `mc.lock` and calls into
the connection layer. -/
inductive Event where
  | RLock : Event
  | RUnlock : Event
  | Lock : Event
  | Unlock : Event
  | Send (broker : Broker) (clientId : String) (topics : List String) : Event
  | Connect (broker : Broker) : Event
deriving DecidableEq, Repr

/-- The environment of a call: which entry a `range` over `mc.brokers` yields
first, what `broker.Send` returns for a metadata request, and what
`broker.Connect` returns. -/
structure Env where
  pick : Nat
  send : Broker → String → List String → Except GoError MetadataResponse
  connect : Broker → Option GoError

/-- The result of a refresh: the cache afterwards, the returned `error`, and
the events of the call in program order. -/
structure Outcome where
  mc : metadataCache
  err : Option GoError
  trace : List Event

namespace metadataCache

/-- The method `leader` (lines 38-53). -/
def leader (mc : metadataCache) (topic : String) (partition_id : Int) : Option Broker :=
  match mc.leaders.lookup topic with
  | some partitions =>
    let leader := (partitions.lookup partition_id).getD 0
    if leader = -1 then none else mc.brokers.lookup leader
  | none => none

/-- The method `any` (lines 55-64): the first broker the range yields; `pick`
selects which entry that is. -/
def any (mc : metadataCache) (pick : Nat) : Option Broker :=
  (mc.brokers.entries.get? (pick % mc.brokers.entries.length)).map (fun e => e.2)

/-- Modelled from the spec: `sort.Sort(int32Slice(ret))`; the type `int32Slice`
and its `Less` are declared outside `metadata_cache.go`, and the spec has the
result "sorted ascending". -/
def sortInt32Slice (ret : List Int) : List Int :=
  ret.insertionSort (fun a b => a ≤ b)

/-- The body of `partitions` (lines 75-81): `make([]int32, len(partitions))` is
a slice of `len` zeros, each key is appended to it, and the slice is sorted.
`order` is the order in which the range yields the keys. -/
def partitionsIn (order : List Int) : List Int :=
  sortInt32Slice (List.replicate order.length 0 ++ order)

/-- The method `partitions` (lines 66-82), ranging over the keys in the order
of the association list (`partitionsIn_perm`: the order does not matter). -/
def partitions (mc : metadataCache) (topic : String) : Option (List Int) :=
  match mc.leaders.lookup topic with
  | none => none
  | some partitions => some (partitionsIn partitions.keys)

/-- The loop of lines 99-106, threading the cache and the events so far. -/
def connectBrokers (connect : Broker → Option GoError) :
    List Broker → metadataCache × List Event → (metadataCache × List Event) × Option GoError
  | [], s => (s, none)
  | broker :: rest, (mc, tr) =>
    match connect broker with
    | some err => ((mc, tr ++ [Event.Connect broker]), some err)
    | none =>
      connectBrokers connect rest
        ({ mc with brokers := mc.brokers.insert broker.id broker }, tr ++ [Event.Connect broker])

/-- The assignment `mc.leaders[name][id] = leader` (line 119): the inner map is
looked up and written in place.  (On a `nil` inner map Go panics; line 113 has
stored a map under `name` before, so that branch is not reached from
`refreshTopics`.) -/
def setLeader (leaders : LeaderMap) (name : String) (id leader : Int) : LeaderMap :=
  match leaders.lookup name with
  | some m => leaders.insert name (m.insert id leader)
  | none => leaders

/-- The inner loop of lines 114-120 for the topic `name`. -/
def recordPartitions (name : String) :
    List PartitionMetadata → LeaderMap → LeaderMap × Option GoError
  | [], leaders => (leaders, none)
  | partition :: rest, leaders =>
    if partition.Err ≠ NO_ERROR then (leaders, some (GoError.Protocol partition.Err))
    else recordPartitions name rest (setLeader leaders name partition.Id partition.Leader)

/-- The loop of lines 108-121. -/
def recordTopics : List TopicMetadata → LeaderMap → LeaderMap × Option GoError
  | [], leaders => (leaders, none)
  | topic :: rest, leaders =>
    if topic.Err ≠ NO_ERROR then (leaders, some (GoError.Protocol topic.Err))
    else
      match recordPartitions topic.Name topic.Partitions (leaders.insert topic.Name ∅) with
      | (leaders1, some err) => (leaders1, some err)
      | (leaders1, none) => recordTopics rest leaders1

/-- Lines 96-124 of `refreshTopics`: the merge of a received response into the
cache under the exclusive lock (released by the deferred `Unlock`). -/
def merge (connect : Broker → Option GoError) (mc : metadataCache) (response : MetadataResponse)
    (tr : List Event) : Outcome :=
  match connectBrokers connect response.Brokers (mc, tr ++ [Event.Lock]) with
  | ((mc1, tr1), some err) => { mc := mc1, err := some err, trace := tr1 ++ [Event.Unlock] }
  | ((mc1, tr1), none) =>
    match recordTopics response.Topics mc1.leaders with
    | (leaders1, err) =>
      { mc := { mc1 with leaders := leaders1 }, err := err, trace := tr1 ++ [Event.Unlock] }

/-- The method `refreshTopics` (lines 84-124). -/
def refreshTopics (mc : metadataCache) (env : Env) (topics : List String) : Outcome :=
  match mc.any env.pick with
  | none => { mc := mc, err := some GoError.OutOfBrokers, trace := [Event.RLock, Event.RUnlock] }
  | some broker =>
    let tr := [Event.RLock, Event.RUnlock, Event.Send broker mc.client topics]
    match env.send broker mc.client topics with
    | Except.error err => { mc := mc, err := some err, trace := tr }
    | Except.ok response => merge env.connect mc response tr

/-- The method `refreshTopic` (lines 126-130). -/
def refreshTopic (mc : metadataCache) (env : Env) (topic : String) : Outcome :=
  mc.refreshTopics env [topic]

end metadataCache

open metadataCache

/-! ## Predicates on cache states and concrete states -/

/-- Every registry entry is stored under the key equal to its own id. -/
def KeyIsId (brokers : BrokerMap) : Prop :=
  ∀ (k : Int) (b : Broker), brokers.lookup k = some b → b.id = k

/-- The broker `nodeA` of the examples, with id 1. -/
def nodeA : Broker := { id := 1, host := "a.example", port := 9092 }

/-- A broker with id 0. -/
def node0 : Broker := { id := 0, host := "z.example", port := 9092 }

/-- A broker with id 2. -/
def node2 : Broker := { id := 2, host := "b.example", port := 9092 }

/-- The example state: registry = {1 → nodeA}, leadership["orders"] = {0: 1, 1: -1}. -/
def exOrders : metadataCache :=
  { client := "c"
    brokers := (∅ : BrokerMap).insert 1 nodeA
    leaders := (∅ : LeaderMap).insert "orders"
      (((∅ : PartitionMap).insert 0 1).insert 1 (-1)) }

/-- A state whose leadership table names broker 7, which the registry does not
hold: registry = {1 → nodeA}, leadership["orders"] = {0: 7}. -/
def exStale : metadataCache :=
  { client := "c"
    brokers := (∅ : BrokerMap).insert 1 nodeA
    leaders := (∅ : LeaderMap).insert "orders" ((∅ : PartitionMap).insert 0 7) }

/-- A state whose registry holds a broker with id 0:
registry = {0 → node0, 1 → nodeA}, leadership["orders"] = {0: 1}. -/
def exZero : metadataCache :=
  { client := "c"
    brokers := ((∅ : BrokerMap).insert 0 node0).insert 1 nodeA
    leaders := (∅ : LeaderMap).insert "orders" ((∅ : PartitionMap).insert 0 1) }

/-! ## Reference definitions for the refresh -/

/-- The partition map a response entry describes: the listed partitions in
order, each mapped to its leader, a later listing of an id replacing an
earlier one. -/
def partitionMapOf (ps : List PartitionMetadata) (start : PartitionMap) : PartitionMap :=
  ps.foldl (fun m p => m.insert p.Id p.Leader) start

/-- The registry after every broker of the list has been stored under its id,
in order, a later broker replacing an earlier one with the same id. -/
def registerAll (bs : List Broker) (start : BrokerMap) : BrokerMap :=
  bs.foldl (fun m b => m.insert b.id b) start

/-- The response is what the send of `refreshTopics` receives: the node chosen
by `any` answers the metadata request for `topics` with `response`. -/
def Received (mc : metadataCache) (env : Env) (topics : List String)
    (response : MetadataResponse) : Prop :=
  ∀ b, mc.any env.pick = some b → env.send b mc.client topics = Except.ok response

/-- Every partition of the list carries `NO_ERROR`. -/
def PartitionsOk (ps : List PartitionMetadata) : Prop :=
  ∀ p ∈ ps, p.Err = NO_ERROR

/-- Every topic of the list and every partition of it carries `NO_ERROR`. -/
def TopicsOk (ts : List TopicMetadata) : Prop :=
  ∀ t ∈ ts, t.Err = NO_ERROR ∧ PartitionsOk t.Partitions

/-- Every broker of the list connects. -/
def AllConnect (connect : Broker → Option GoError) (bs : List Broker) : Prop :=
  ∀ b ∈ bs, connect b = none

/-! ## Concrete responses and environments -/

/-- The response of the example: nodes = [node 2], topics = [x with partition 0
led by node 2], all with `NO_ERROR`. -/
def respX : MetadataResponse :=
  { Brokers := [node2]
    Topics := [{ Err := NO_ERROR, Name := "x",
                 Partitions := [{ Err := NO_ERROR, Id := 0, Leader := 2 }] }] }

/-- An environment in which every send is answered with `response` and every
connect succeeds. -/
def envOf (response : MetadataResponse) : Env :=
  { pick := 0
    send := fun _ _ _ => Except.ok response
    connect := fun _ => none }

/-- The cache with an empty registry and an empty leadership table. -/
def exEmpty : metadataCache := { client := "c", brokers := ∅, leaders := ∅ }

/-! ## The response in processing order -/

/-- What the merge processes, one at a time: a reported node, a reported
topic, or a partition reported under the topic `name`. -/
inductive Item where
  | broker (b : Broker) : Item
  | topic (t : TopicMetadata) : Item
  | partition (name : String) (p : PartitionMetadata) : Item
deriving DecidableEq, Repr

/-- The items of a list of topics in response order: each topic, followed by
its partitions in order. -/
def topicItems : List TopicMetadata → List Item
  | [] => []
  | t :: ts => Item.topic t :: (t.Partitions.map (Item.partition t.Name) ++ topicItems ts)

/-- The items of a response in processing order: the nodes in response order,
then for each topic in response order the topic followed by its partitions. -/
def itemsOf (response : MetadataResponse) : List Item :=
  response.Brokers.map Item.broker ++ topicItems response.Topics

/-- An error code as a returned error: `nil` for `NO_ERROR`. -/
def codeError (c : KError) : Option GoError :=
  if c ≠ NO_ERROR then some (GoError.Protocol c) else none

/-- The failure of an item, if any: the error of the node's connect, or the
error code of the topic or partition. -/
def Item.check (connect : Broker → Option GoError) : Item → Option GoError
  | Item.broker b => connect b
  | Item.topic t => codeError t.Err
  | Item.partition _ p => codeError p.Err

/-- The write the merge performs for an item: line 105 for a node, line 113
for a topic, line 119 for a partition. -/
def Item.write : Item → metadataCache → metadataCache
  | Item.broker b, mc => { mc with brokers := mc.brokers.insert b.id b }
  | Item.topic t, mc => { mc with leaders := mc.leaders.insert t.Name ∅ }
  | Item.partition name p, mc => { mc with leaders := setLeader mc.leaders name p.Id p.Leader }

/-- The first failure of a list of items in order. -/
def firstFailure (connect : Broker → Option GoError) (items : List Item) : Option GoError :=
  items.findSome? (Item.check connect)

/-- The items before the first failure. -/
def itemsBeforeFailure (connect : Broker → Option GoError) (items : List Item) : List Item :=
  items.takeWhile (fun i => (i.check connect).isNone)

/-- Processing items one at a time: stop at the first failure, write
otherwise. -/
def runItems (connect : Broker → Option GoError) :
    List Item → metadataCache → metadataCache × Option GoError
  | [], mc => (mc, none)
  | i :: rest, mc =>
    match i.check connect with
    | some e => (mc, some e)
    | none => runItems connect rest (i.write mc)

/-- A response whose second topic repeats the name of the first and carries the
topic-level error code 5. -/
def respRepeat : MetadataResponse :=
  { Brokers := []
    Topics := [{ Err := NO_ERROR, Name := "a",
                 Partitions := [{ Err := NO_ERROR, Id := 0, Leader := 1 }] },
               { Err := 5, Name := "a", Partitions := [] }] }

/-- A response in which the topic "orders" carries `NO_ERROR` and its only
partition carries the error code 3. -/
def respBadPartition : MetadataResponse :=
  { Brokers := []
    Topics := [{ Err := NO_ERROR, Name := "orders",
                 Partitions := [{ Err := 3, Id := 0, Leader := 1 }] }] }

/-- Partition 4 led by node 2, without error. -/
def partitionGood : PartitionMetadata := { Err := NO_ERROR, Id := 4, Leader := 2 }

/-- Partition 0 with the error code 3. -/
def partitionBad : PartitionMetadata := { Err := 3, Id := 0, Leader := 1 }

/-- The topic "orders" without topic-level error, whose second partition
carries an error code. -/
def topicBadSecond : TopicMetadata :=
  { Err := NO_ERROR, Name := "orders", Partitions := [partitionGood, partitionBad] }

/-- A response in which the second partition of "orders" carries the error
code 3, after a first partition without error. -/
def respBadSecond : MetadataResponse :=
  { Brokers := [node2], Topics := [topicBadSecond] }

/-- The topic "x" with partition 0 led by node 2, without error. -/
def topicX : TopicMetadata :=
  { Err := NO_ERROR, Name := "x", Partitions := [{ Err := NO_ERROR, Id := 0, Leader := 2 }] }

/-- The topic "orders" with the topic-level error code 5. -/
def topicOrdersErr : TopicMetadata := { Err := 5, Name := "orders", Partitions := [] }

/-- A response whose second topic carries the topic-level error code 5, after
a first topic "x" without error. -/
def respBadTopic : MetadataResponse :=
  { Brokers := [node2], Topics := [topicX, topicOrdersErr] }

/-- The environment `env` with every send answered by `response`. -/
def answering (env : Env) (response : MetadataResponse) : Env :=
  { env with send := fun _ _ _ => Except.ok response }

/-! ## Construction and reachable states -/

/-- The two results of `newMetadataCache` (`*metadataCache`, `error`), with the
events of the call. -/
structure Built where
  cache : Option metadataCache
  err : Option GoError
  trace : List Event

/-- The cache `newMetadataCache` has built at line 27, before the initial
refresh: the registry holds the seed broker under its id, the leadership table
is empty. -/
def seedCache (client : String) (starter : Broker) : metadataCache :=
  { client := client
    brokers := (∅ : BrokerMap).insert starter.id starter
    leaders := ∅ }

/-- The function `newMetadataCache` (lines 15-36).  `newBroker` is `NewBroker`,
declared outside `metadata_cache.go`; `client` is the id of the client. -/
def newMetadataCache (newBroker : String → Int → Except GoError Broker) (env : Env)
    (client : String) (host : String) (port : Int) : Built :=
  match newBroker host port with
  | Except.error err => { cache := none, err := some err, trace := [] }
  | Except.ok starter =>
    let out := (seedCache client starter).refreshTopics env []
    match out.err with
    | some err => { cache := none, err := some err, trace := out.trace }
    | none => { cache := some out.mc, err := none, trace := out.trace }

/-- The cache states reachable from a successful `newMetadataCache` by calls of
`refreshTopics` and `refreshTopic`, each in an environment of its own (the
lookups `leader`, `any` and `partitions` do not change the state). -/
inductive Reachable : metadataCache → Prop where
  | init (newBroker : String → Int → Except GoError Broker) (env : Env) (client host : String)
      (port : Int) (mc : metadataCache)
      (h : (newMetadataCache newBroker env client host port).cache = some mc) : Reachable mc
  | refreshTopics (mc : metadataCache) (env : Env) (topics : List String)
      (h : Reachable mc) : Reachable (mc.refreshTopics env topics).mc
  | refreshTopic (mc : metadataCache) (env : Env) (topic : String)
      (h : Reachable mc) : Reachable (mc.refreshTopic env topic).mc

/-- Every leader id stored in the leadership table is the sentinel -1 or a key
of the registry. -/
def LeadersValid (mc : metadataCache) : Prop :=
  ∀ (n : String) (m : PartitionMap) (p L : Int),
    mc.leaders.lookup n = some m → m.lookup p = some L → L = -1 ∨ L ∈ mc.brokers

/-- Every leader id of the response is the sentinel -1, a key of the registry
of `mc`, or the id of a node the response reports. -/
def LeadersKnown (mc : metadataCache) (response : MetadataResponse) : Prop :=
  ∀ t ∈ response.Topics, ∀ p ∈ t.Partitions,
    p.Leader = -1 ∨ p.Leader ∈ mc.brokers ∨ ∃ b ∈ response.Brokers, b.id = p.Leader

/-! ## Locks held during network calls -/

/-- The network calls of a trace, each with the number of shared and of
exclusive acquisitions of `mc.lock` the calling thread holds when it makes the
call; `r` and `w` are the numbers held at the start of the trace. -/
def ioContexts : Nat → Nat → List Event → List (Event × Nat × Nat)
  | _, _, [] => []
  | r, w, Event.RLock :: es => ioContexts (r + 1) w es
  | r, w, Event.RUnlock :: es => ioContexts (r - 1) w es
  | r, w, Event.Lock :: es => ioContexts r (w + 1) es
  | r, w, Event.Unlock :: es => ioContexts r (w - 1) es
  | r, w, Event.Send b c ts :: es => (Event.Send b c ts, r, w) :: ioContexts r w es
  | r, w, Event.Connect b :: es => (Event.Connect b, r, w) :: ioContexts r w es

/-- The events of each lookup accessor (`leader`, `any`, `partitions`): `RLock`
on entry (lines 39, 56, 67), the deferred `RUnlock` on return, and no call into
the connection layer in between. -/
def accessorEvents : List Event := [Event.RLock, Event.RUnlock]

/-! ## More concrete responses -/

/-- A response that reports no node and names the unknown broker 7 as the
leader of partition 0 of "x". -/
def respGhost : MetadataResponse :=
  { Brokers := []
    Topics := [{ Err := NO_ERROR, Name := "x",
                 Partitions := [{ Err := NO_ERROR, Id := 0, Leader := 7 }] }] }

/-- A `NewBroker` that yields the seed broker `nodeA` for every address. -/
def seedA : String → Int → Except GoError Broker := fun _ _ => Except.ok nodeA

/-- An environment in which every send fails with a transport error. -/
def envDown : Env :=
  { pick := 0
    send := fun _ _ _ => Except.error (GoError.Network "EOF")
    connect := fun _ => none }

/-- A response that reports no node and lists the topic "orders" with
partition 0 led by node 1 and partition 1 without leader. -/
def respOrders : MetadataResponse :=
  { Brokers := []
    Topics := [{ Err := NO_ERROR, Name := "orders",
                 Partitions := [{ Err := NO_ERROR, Id := 0, Leader := 1 },
                                { Err := NO_ERROR, Id := 1, Leader := -1 }] }] }

/-- An environment in which every send returns the error `OutOfBrokers`. -/
def envOutOfBrokers : Env :=
  { pick := 0
    send := fun _ _ _ => Except.error GoError.OutOfBrokers
    connect := fun _ => none }

/-! ## Lookups -/

/-- A map with an entry is not the empty map. -/
theorem ne_empty_of_lookup {α : Type} {β : α → Type} [DecidableEq α] {m : AList β} {k : α}
    {v : β k} (h : m.lookup k = some v) : m ≠ ∅ := by
  intro he
  rw [he, AList.lookup_empty] at h
  exact Option.noConfusion h

/-- The result of `partitions` does not depend on the order in which the range
over the map yields the keys. -/
theorem partitionsIn_perm {o1 o2 : List Int} (h : o1.Perm o2) :
    partitionsIn o1 = partitionsIn o2 := by
  unfold partitionsIn sortInt32Slice
  apply List.eq_of_perm_of_sorted (r := fun a b : Int => a ≤ b)
  · refine (List.perm_insertionSort _ _).trans
      (List.Perm.trans ?_ (List.perm_insertionSort _ _).symm)
    rw [h.length_eq]
    exact List.Perm.append_left _ h
  · exact List.sorted_insertionSort _ _
  · exact List.sorted_insertionSort _ _

/-- When `P` is cached for `T` with leader `L`, `leader` is `nil` for the
sentinel and the registry lookup of `L` otherwise. -/
theorem leader_of_cached (mc : metadataCache) (T : String) (P L : Int) (m : PartitionMap)
    (hT : mc.leaders.lookup T = some m) (hP : m.lookup P = some L) :
    mc.leader T P = if L = -1 then none else mc.brokers.lookup L := by
  simp only [leader, hT]
  rw [hP]
  rfl

/-- When `T` is not cached, `leader` is `nil`. -/
theorem leader_of_uncached_topic (mc : metadataCache) (T : String) (P : Int)
    (hT : mc.leaders.lookup T = none) : mc.leader T P = none := by
  simp only [leader, hT]

/-- When `T` is cached and `P` is not a key of its map, the lookup of `P`
yields the zero value 0 and `leader` is the registry lookup of broker 0. -/
theorem leader_of_uncached_partition (mc : metadataCache) (T : String) (P : Int)
    (m : PartitionMap) (hT : mc.leaders.lookup T = some m) (hP : m.lookup P = none) :
    mc.leader T P = mc.brokers.lookup 0 := by
  simp only [leader, hT]
  rw [hP]
  rfl

/-- C1, as stated, fails: in `exStale` partition 0 of "orders" has the stored
leader 7, which is not the sentinel, and `leader` returns `nil` since the
registry has no entry under 7. -/
theorem leader_stored_counterexample :
    exStale.leaders.lookup "orders" = some ((∅ : PartitionMap).insert 0 7) ∧
    ((∅ : PartitionMap).insert 0 7).lookup 0 = some 7 ∧ (7 : Int) ≠ -1 ∧
    ¬ ∃ b : Broker, exStale.leader "orders" 0 = some b ∧
        exStale.brokers.lookup 7 = some b ∧ b.id = 7 := by
  refine ⟨rfl, rfl, by decide, ?_⟩
  rintro ⟨b, hb, -, -⟩
  have h : exStale.leader "orders" 0 = none := rfl
  rw [h] at hb
  exact Option.noConfusion hb

/-- C1, amended: when `P` is cached for `T` with a stored leader `L` other than
the sentinel, `leader T P` is exactly the registry lookup of `L`: the entry
stored under `L` when `L` is a key of the registry (its id is `L` when the
registry stores every broker under its own id), and `nil` when `L` is not a
key. -/
theorem leader_eq_registry_lookup (mc : metadataCache) (T : String) (P L : Int)
    (m : PartitionMap) (hT : mc.leaders.lookup T = some m) (hP : m.lookup P = some L)
    (hL : L ≠ -1) :
    mc.leader T P = mc.brokers.lookup L ∧
    (L ∈ mc.brokers → ∃ b, mc.leader T P = some b ∧ mc.brokers.lookup L = some b ∧
      (KeyIsId mc.brokers → b.id = L)) ∧
    (L ∉ mc.brokers → mc.leader T P = none) := by
  have h := leader_of_cached mc T P L m hT hP
  rw [if_neg hL] at h
  refine ⟨h, ?_, ?_⟩
  · intro hmem
    obtain ⟨b, hb⟩ := Option.isSome_iff_exists.mp (AList.lookup_isSome.mpr hmem)
    exact ⟨b, h.trans hb, hb, fun hk => hk L b hb⟩
  · intro hmem
    rw [h]; exact AList.lookup_eq_none.mpr hmem

/-- Witness of `leader_eq_registry_lookup` in the example state: partition 0 of
"orders" has leader 1 and `leader` returns `nodeA`. -/
theorem leader_eq_registry_lookup_witness :
    exOrders.leader "orders" 0 = some nodeA ∧
    (exOrders.leader "orders" 0 = exOrders.brokers.lookup 1 ∧
      ((1 : Int) ∈ exOrders.brokers → ∃ b, exOrders.leader "orders" 0 = some b ∧
        exOrders.brokers.lookup 1 = some b ∧ (KeyIsId exOrders.brokers → b.id = 1)) ∧
      ((1 : Int) ∉ exOrders.brokers → exOrders.leader "orders" 0 = none)) :=
  ⟨rfl,
   leader_eq_registry_lookup exOrders "orders" 0 1 (((∅ : PartitionMap).insert 0 1).insert 1 (-1))
     rfl rfl (by decide)⟩

/-- C2, the code at the failing input: in `exZero` the topic "orders" is cached
and partition 5 is not a key of its map, yet `leader "orders" 5` is not `nil`:
it is the broker stored under the zero value 0. -/
theorem leader_uncached_partition_returns_broker_zero :
    (∃ m, exZero.leaders.lookup "orders" = some m ∧ m.lookup 5 = none) ∧
    exZero.leader "orders" 5 = some node0 :=
  ⟨⟨(∅ : PartitionMap).insert 0 1, rfl, rfl⟩, rfl⟩

/-- C3, the code at the failing input: for the topic "orders" cached with the
partitions {0, 1}, `partitions` returns [0, 0, 0, 1] and not [0, 1]. -/
theorem partitions_padded_with_zeros :
    (∃ m, exOrders.leaders.lookup "orders" = some m ∧ m.keys.Perm [0, 1]) ∧
    exOrders.partitions "orders" = some [0, 0, 0, 1] :=
  ⟨⟨((∅ : PartitionMap).insert 0 1).insert 1 (-1), rfl, by decide⟩, rfl⟩

/-- The method `any` returns `nil` exactly when the registry is empty. -/
theorem any_eq_none_iff (mc : metadataCache) (pick : Nat) :
    mc.any pick = none ↔ mc.brokers = ∅ := by
  unfold any
  constructor
  · intro h
    apply AList.ext
    rw [AList.empty_entries]
    by_contra hne
    have hpos : 0 < mc.brokers.entries.length := List.length_pos.mpr hne
    have hlt := Nat.mod_lt pick hpos
    simp only [Option.map_eq_none', List.get?_eq_none] at h
    omega
  · intro h
    simp [h]

/-- A broker returned by `any` is stored in the registry under some key. -/
theorem any_mem_registry (mc : metadataCache) (pick : Nat) (b : Broker)
    (h : mc.any pick = some b) : ∃ k, mc.brokers.lookup k = some b := by
  unfold any at h
  rw [Option.map_eq_some'] at h
  obtain ⟨e, he, rfl⟩ := h
  have hmem : e ∈ mc.brokers.entries := List.get?_mem he
  exact ⟨e.1, AList.mem_lookup_iff.mpr hmem⟩

/-! ## The loops of `refreshTopics` -/

/-- Writing a leader into the map just stored under `name`. -/
theorem setLeader_insert (leaders : LeaderMap) (name : String) (m : PartitionMap)
    (id leader : Int) :
    setLeader (leaders.insert name m) name id leader = leaders.insert name (m.insert id leader) := by
  unfold setLeader
  rw [AList.lookup_insert]
  exact AList.insert_insert _

/-- The inner loop on a list without errors builds the partition map in
place. -/
theorem recordPartitions_ok (name : String) (ps : List PartitionMetadata)
    (leaders : LeaderMap) (m : PartitionMap) (hok : PartitionsOk ps) :
    recordPartitions name ps (leaders.insert name m) =
      (leaders.insert name (partitionMapOf ps m), none) := by
  induction ps generalizing m with
  | nil => rfl
  | cons p ps ih =>
    have hp : p.Err = NO_ERROR := hok p (List.mem_cons_self _ _)
    have hps : PartitionsOk ps := fun q hq => hok q (List.mem_cons_of_mem _ hq)
    simp only [recordPartitions, hp, ne_eq, not_true_eq_false, if_false, setLeader_insert]
    rw [ih _ hps]
    rfl

/-- The inner loop stops at the first partition with an error code, keeping
the leaders written before it. -/
theorem recordPartitions_err (name : String) (ps1 ps2 : List PartitionMetadata)
    (q : PartitionMetadata) (leaders : LeaderMap) (m : PartitionMap) (hok : PartitionsOk ps1)
    (hq : q.Err ≠ NO_ERROR) :
    recordPartitions name (ps1 ++ q :: ps2) (leaders.insert name m) =
      (leaders.insert name (partitionMapOf ps1 m), some (GoError.Protocol q.Err)) := by
  induction ps1 generalizing m with
  | nil => simp [recordPartitions, hq, partitionMapOf]
  | cons p ps ih =>
    have hp : p.Err = NO_ERROR := hok p (List.mem_cons_self _ _)
    have hps : PartitionsOk ps := fun r hr => hok r (List.mem_cons_of_mem _ hr)
    simp only [List.cons_append, recordPartitions, hp, ne_eq, not_true_eq_false, if_false,
      setLeader_insert]
    exact ih _ hps

/-- Writing a leader for `name` leaves the entries of other topics alone. -/
theorem setLeader_lookup_ne (leaders : LeaderMap) (name n : String) (id leader : Int)
    (hn : n ≠ name) : (setLeader leaders name id leader).lookup n = leaders.lookup n := by
  unfold setLeader
  split
  · exact AList.lookup_insert_ne hn
  · rfl

/-- The inner loop for `name` leaves the entries of other topics alone. -/
theorem recordPartitions_lookup_ne (name : String) (ps : List PartitionMetadata)
    (leaders : LeaderMap) (n : String) (hn : n ≠ name) :
    (recordPartitions name ps leaders).1.lookup n = leaders.lookup n := by
  induction ps generalizing leaders with
  | nil => rfl
  | cons p ps ih =>
    unfold recordPartitions
    split
    · rfl
    · rw [ih, setLeader_lookup_ne _ _ _ _ _ hn]

/-- One step of the topic loop on a topic without errors. -/
theorem recordTopics_cons_ok (t : TopicMetadata) (ts : List TopicMetadata) (leaders : LeaderMap)
    (ht : t.Err = NO_ERROR) (hps : PartitionsOk t.Partitions) :
    recordTopics (t :: ts) leaders =
      recordTopics ts (leaders.insert t.Name (partitionMapOf t.Partitions ∅)) := by
  simp only [recordTopics, ht, ne_eq, not_true_eq_false, if_false]
  rw [recordPartitions_ok _ _ _ _ hps]

/-- The topic loop over a list of topics without errors, followed by more
topics, continues with the rest. -/
theorem recordTopics_append_ok (ts1 ts2 : List TopicMetadata) (leaders : LeaderMap)
    (hok : TopicsOk ts1) :
    (recordTopics ts1 leaders).2 = none ∧
    recordTopics (ts1 ++ ts2) leaders = recordTopics ts2 (recordTopics ts1 leaders).1 := by
  induction ts1 generalizing leaders with
  | nil => exact ⟨rfl, rfl⟩
  | cons t ts ih =>
    have ht := hok t (List.mem_cons_self _ _)
    have hts : TopicsOk ts := fun u hu => hok u (List.mem_cons_of_mem _ hu)
    rw [List.cons_append, recordTopics_cons_ok _ _ _ ht.1 ht.2,
      recordTopics_cons_ok _ _ _ ht.1 ht.2]
    exact ih _ hts

/-- The topic loop never touches the entry of a name that no topic of the
list carries. -/
theorem recordTopics_lookup_of_not_mem (ts : List TopicMetadata) (leaders : LeaderMap)
    (n : String) (hn : ∀ t ∈ ts, t.Name ≠ n) :
    (recordTopics ts leaders).1.lookup n = leaders.lookup n := by
  induction ts generalizing leaders with
  | nil => rfl
  | cons t ts ih =>
    have ht : n ≠ t.Name := fun h => hn t (List.mem_cons_self _ _) h.symm
    have hts : ∀ u ∈ ts, u.Name ≠ n := fun u hu => hn u (List.mem_cons_of_mem _ hu)
    have hrec := recordPartitions_lookup_ne t.Name t.Partitions (leaders.insert t.Name ∅) n ht
    rw [AList.lookup_insert_ne ht] at hrec
    unfold recordTopics
    split
    · rfl
    · split
      · rename_i l1 e heq
        rw [heq] at hrec
        exact hrec
      · rename_i l1 heq
        rw [heq] at hrec
        rw [ih l1 hts]
        exact hrec

/-- The broker loop, when every broker connects, stores them all. -/
theorem connectBrokers_ok (connect : Broker → Option GoError) (bs : List Broker)
    (mc : metadataCache) (tr : List Event) (hok : AllConnect connect bs) :
    connectBrokers connect bs (mc, tr) =
      (({ mc with brokers := registerAll bs mc.brokers }, tr ++ bs.map Event.Connect), none) := by
  induction bs generalizing mc tr with
  | nil => simp [connectBrokers, registerAll]
  | cons b bs ih =>
    have hb : connect b = none := hok b (List.mem_cons_self _ _)
    have hbs : AllConnect connect bs := fun c hc => hok c (List.mem_cons_of_mem _ hc)
    simp only [connectBrokers, hb]
    rw [ih _ _ hbs]
    simp [registerAll]

/-- The broker loop stops at the first broker that fails to connect, keeping
the brokers stored before it. -/
theorem connectBrokers_err (connect : Broker → Option GoError) (bs1 bs2 : List Broker)
    (b : Broker) (e : GoError) (mc : metadataCache) (tr : List Event)
    (hok : AllConnect connect bs1) (hb : connect b = some e) :
    connectBrokers connect (bs1 ++ b :: bs2) (mc, tr) =
      (({ mc with brokers := registerAll bs1 mc.brokers },
        tr ++ bs1.map Event.Connect ++ [Event.Connect b]), some e) := by
  induction bs1 generalizing mc tr with
  | nil => simp [connectBrokers, registerAll, hb]
  | cons c bs ih =>
    have hc : connect c = none := hok c (List.mem_cons_self _ _)
    have hbs : AllConnect connect bs := fun d hd => hok d (List.mem_cons_of_mem _ hd)
    simp only [List.cons_append, connectBrokers, hc]
    refine (ih _ _ hbs).trans ?_
    simp [registerAll]

/-- The registry lookup of an id no broker of the list carries is unchanged. -/
theorem registerAll_lookup_of_not_mem (bs : List Broker) (start : BrokerMap) (k : Int)
    (hk : ∀ b ∈ bs, b.id ≠ k) : (registerAll bs start).lookup k = start.lookup k := by
  induction bs generalizing start with
  | nil => rfl
  | cons b bs ih =>
    have hb : k ≠ b.id := fun h => hk b (List.mem_cons_self _ _) h.symm
    have hbs : ∀ c ∈ bs, c.id ≠ k := fun c hc => hk c (List.mem_cons_of_mem _ hc)
    show (registerAll bs (start.insert b.id b)).lookup k = _
    rw [ih _ hbs, AList.lookup_insert_ne hb]

/-- The registry lookup of a listed id is the last broker listed with it. -/
theorem registerAll_lookup_last (pre post : List Broker) (b : Broker) (start : BrokerMap)
    (hpost : ∀ c ∈ post, c.id ≠ b.id) :
    (registerAll (pre ++ b :: post) start).lookup b.id = some b := by
  unfold registerAll
  rw [List.foldl_append, List.foldl_cons]
  exact (registerAll_lookup_of_not_mem post _ b.id hpost).trans (AList.lookup_insert _)

/-- The merge of a response whose brokers all connect. -/
theorem merge_of_allConnect (connect : Broker → Option GoError) (mc : metadataCache)
    (resp : MetadataResponse) (tr : List Event) (hok : AllConnect connect resp.Brokers) :
    merge connect mc resp tr =
      { mc := { mc with brokers := registerAll resp.Brokers mc.brokers
                        leaders := (recordTopics resp.Topics mc.leaders).1 }
        err := (recordTopics resp.Topics mc.leaders).2
        trace := tr ++ [Event.Lock] ++ resp.Brokers.map Event.Connect ++ [Event.Unlock] } := by
  unfold merge
  rw [connectBrokers_ok connect _ _ _ hok]

/-- With a registry that is not empty, `refreshTopics` sends to the broker
chosen by `any` and merges the response it receives. -/
theorem refreshTopics_eq_merge (mc : metadataCache) (env : Env) (topics : List String)
    (resp : MetadataResponse) (hne : mc.brokers ≠ ∅) (hrecv : Received mc env topics resp) :
    ∃ b, mc.any env.pick = some b ∧
      mc.refreshTopics env topics =
        merge env.connect mc resp
          [Event.RLock, Event.RUnlock, Event.Send b mc.client topics] := by
  have hsome : mc.any env.pick ≠ none := fun h => hne ((any_eq_none_iff mc env.pick).mp h)
  obtain ⟨b, hb⟩ := Option.ne_none_iff_exists'.mp hsome
  refine ⟨b, hb, ?_⟩
  unfold refreshTopics
  rw [hb]
  simp only [hrecv b hb]

/-! ## A successful refresh -/

/-- An element of a list has a last occurrence of its key `f`. -/
theorem exists_last_occurrence {α β : Type} (f : α → β) (l : List α) (k : β)
    (h : ∃ a ∈ l, f a = k) :
    ∃ pre x post, l = pre ++ x :: post ∧ f x = k ∧ ∀ y ∈ post, f y ≠ k := by
  induction l with
  | nil => obtain ⟨a, ha, -⟩ := h; cases ha
  | cons x xs ih =>
    by_cases hxs : ∃ a ∈ xs, f a = k
    · obtain ⟨pre, y, post, hl, hy, hpost⟩ := ih hxs
      exact ⟨x :: pre, y, post, by rw [hl]; rfl, hy, hpost⟩
    · obtain ⟨a, ha, hfa⟩ := h
      rcases List.mem_cons.mp ha with rfl | ha
      · exact ⟨[], a, xs, rfl, hfa, fun y hy hfy => hxs ⟨y, hy, hfy⟩⟩
      · exact absurd ⟨a, ha, hfa⟩ hxs

/-- The keys of the partition map of a list are the listed ids and the keys of
the starting map. -/
theorem mem_partitionMapOf (ps : List PartitionMetadata) (start : PartitionMap) (p : Int) :
    p ∈ partitionMapOf ps start ↔ (∃ q ∈ ps, q.Id = p) ∨ p ∈ start := by
  induction ps generalizing start with
  | nil => simp [partitionMapOf]
  | cons q qs ih =>
    show p ∈ partitionMapOf qs (start.insert q.Id q.Leader) ↔ _
    rw [ih, AList.mem_insert]
    simp only [List.mem_cons, exists_eq_or_imp]
    constructor
    · rintro (h | h | h)
      · exact Or.inl (Or.inr h)
      · exact Or.inl (Or.inl h.symm)
      · exact Or.inr h
    · rintro ((h | h) | h)
      · exact Or.inr (Or.inl h.symm)
      · exact Or.inl h
      · exact Or.inr (Or.inr h)

/-- An id that is not listed keeps the leader of the starting map. -/
theorem partitionMapOf_lookup_of_not_mem (ps : List PartitionMetadata) (start : PartitionMap)
    (p : Int) (hp : ∀ q ∈ ps, q.Id ≠ p) :
    (partitionMapOf ps start).lookup p = start.lookup p := by
  induction ps generalizing start with
  | nil => rfl
  | cons q qs ih =>
    have hq : p ≠ q.Id := fun h => hp q (List.mem_cons_self _ _) h.symm
    have hqs : ∀ r ∈ qs, r.Id ≠ p := fun r hr => hp r (List.mem_cons_of_mem _ hr)
    show (partitionMapOf qs (start.insert q.Id q.Leader)).lookup p = _
    rw [ih _ hqs, AList.lookup_insert_ne hq]

/-- A listed id is mapped to the leader of its last listing. -/
theorem partitionMapOf_lookup_last (pre post : List PartitionMetadata) (q : PartitionMetadata)
    (start : PartitionMap) (hpost : ∀ r ∈ post, r.Id ≠ q.Id) :
    (partitionMapOf (pre ++ q :: post) start).lookup q.Id = some q.Leader := by
  unfold partitionMapOf
  rw [List.foldl_append, List.foldl_cons]
  exact (partitionMapOf_lookup_of_not_mem post _ q.Id hpost).trans (AList.lookup_insert _)

/-- After the topic loop over topics without errors, the entry of a listed
name is the partition map of the last topic listed with that name. -/
theorem recordTopics_lookup_last (pre post : List TopicMetadata) (t : TopicMetadata)
    (leaders : LeaderMap) (hok : TopicsOk (pre ++ t :: post))
    (hpost : ∀ u ∈ post, u.Name ≠ t.Name) :
    (recordTopics (pre ++ t :: post) leaders).1.lookup t.Name =
      some (partitionMapOf t.Partitions ∅) := by
  have hpre : TopicsOk pre := fun u hu => hok u (List.mem_append_left _ hu)
  have ht := hok t (List.mem_append_right _ (List.mem_cons_self _ _))
  rw [(recordTopics_append_ok pre (t :: post) leaders hpre).2,
    recordTopics_cons_ok _ _ _ ht.1 ht.2, recordTopics_lookup_of_not_mem _ _ _ hpost]
  exact AList.lookup_insert _

/-- The topic loop over topics without errors returns no error. -/
theorem recordTopics_ok (ts : List TopicMetadata) (leaders : LeaderMap) (hok : TopicsOk ts) :
    (recordTopics ts leaders).2 = none :=
  (recordTopics_append_ok ts [] leaders hok).1

/-- C5: with a registry that is not empty and a response in which every node
connects and every topic and partition carries `NO_ERROR`, `refreshTopics`
returns no error, and for each topic name of the response the cached partition
map is afterwards exactly the map built from the last entry with that name: its
keys are the partition ids listed there (whatever was cached before is gone),
each mapped to the leader of its last listing. -/
theorem refreshTopics_replaces_partition_maps (mc : metadataCache) (env : Env)
    (topics : List String) (resp : MetadataResponse) (hne : mc.brokers ≠ ∅)
    (hrecv : Received mc env topics resp) (hconn : AllConnect env.connect resp.Brokers)
    (hok : TopicsOk resp.Topics) :
    (mc.refreshTopics env topics).err = none ∧
    ∀ n, (∃ t ∈ resp.Topics, t.Name = n) →
      ∃ pre t post, resp.Topics = pre ++ t :: post ∧ t.Name = n ∧ (∀ u ∈ post, u.Name ≠ n) ∧
        (mc.refreshTopics env topics).mc.leaders.lookup n =
          some (partitionMapOf t.Partitions ∅) ∧
        (∀ p, p ∈ partitionMapOf t.Partitions ∅ ↔ ∃ q ∈ t.Partitions, q.Id = p) ∧
        (∀ p, p ∈ partitionMapOf t.Partitions ∅ →
          ∃ ppre q ppost, t.Partitions = ppre ++ q :: ppost ∧ q.Id = p ∧
            (∀ r ∈ ppost, r.Id ≠ p) ∧
            (partitionMapOf t.Partitions ∅).lookup p = some q.Leader) := by
  obtain ⟨b, -, hrun⟩ := refreshTopics_eq_merge mc env topics resp hne hrecv
  rw [hrun, merge_of_allConnect _ _ _ _ hconn]
  refine ⟨recordTopics_ok _ _ hok, fun n hn => ?_⟩
  obtain ⟨pre, t, post, hl, ht, hpost⟩ := exists_last_occurrence (fun t => t.Name) _ n hn
  have hkeys : ∀ p, p ∈ partitionMapOf t.Partitions ∅ ↔ ∃ q ∈ t.Partitions, q.Id = p := by
    intro p
    rw [mem_partitionMapOf]
    simp [AList.not_mem_empty]
  refine ⟨pre, t, post, hl, ht, hpost, ?_, hkeys, fun p hp => ?_⟩
  · subst ht
    show (recordTopics resp.Topics mc.leaders).1.lookup t.Name = _
    have hok2 := hok
    rw [hl] at hok2 ⊢
    exact recordTopics_lookup_last pre post t mc.leaders hok2 hpost
  · obtain ⟨ppre, q, ppost, hps, hq, hppost⟩ :=
      exists_last_occurrence (fun q => q.Id) _ p ((hkeys p).mp hp)
    refine ⟨ppre, q, ppost, hps, hq, hppost, ?_⟩
    subst hq
    rw [hps]
    exact partitionMapOf_lookup_last ppre ppost q ∅ hppost

/-- Witness of `refreshTopics_replaces_partition_maps`: the example state
refreshed with the example response. -/
theorem refreshTopics_replaces_partition_maps_witness :
    exOrders.brokers ≠ ∅ ∧ Received exOrders (envOf respX) [] respX ∧
    AllConnect (envOf respX).connect respX.Brokers ∧ TopicsOk respX.Topics ∧
    (exOrders.refreshTopics (envOf respX) []).err = none ∧
    (exOrders.refreshTopics (envOf respX) []).mc.leaders.lookup "x" =
      some ((∅ : PartitionMap).insert 0 2) :=
  have h1 : exOrders.brokers ≠ ∅ := ne_empty_of_lookup (k := 1) (v := nodeA) rfl
  have h2 : Received exOrders (envOf respX) [] respX := fun _ _ => rfl
  have h3 : AllConnect (envOf respX).connect respX.Brokers := fun _ _ => rfl
  have h4 : TopicsOk respX.Topics := by
    simp [TopicsOk, PartitionsOk, respX]
  ⟨h1, h2, h3, h4,
    (refreshTopics_replaces_partition_maps exOrders (envOf respX) [] respX h1 h2 h3 h4).1, rfl⟩

/-- C6: with a registry that is not empty and a response whose nodes all
connect, after `refreshTopics` (whether the topic loop then succeeds or aborts)
the registry maps each node id of the response to the last node listed with
that id, whatever was stored under that id before. -/
theorem refreshTopics_upserts_brokers (mc : metadataCache) (env : Env)
    (topics : List String) (resp : MetadataResponse) (hne : mc.brokers ≠ ∅)
    (hrecv : Received mc env topics resp) (hconn : AllConnect env.connect resp.Brokers) :
    ∀ k, (∃ b ∈ resp.Brokers, b.id = k) →
      ∃ pre b post, resp.Brokers = pre ++ b :: post ∧ b.id = k ∧ (∀ c ∈ post, c.id ≠ k) ∧
        (mc.refreshTopics env topics).mc.brokers.lookup k = some b := by
  intro k hk
  obtain ⟨b0, -, hrun⟩ := refreshTopics_eq_merge mc env topics resp hne hrecv
  rw [hrun, merge_of_allConnect _ _ _ _ hconn]
  obtain ⟨pre, b, post, hl, hb, hpost⟩ := exists_last_occurrence (fun b => b.id) _ k hk
  refine ⟨pre, b, post, hl, hb, hpost, ?_⟩
  subst hb
  show (registerAll resp.Brokers mc.brokers).lookup b.id = some b
  rw [hl]
  exact registerAll_lookup_last pre post b mc.brokers hpost

/-- Witness of `refreshTopics_upserts_brokers`: the example state refreshed
with the example response holds node 2 under the key 2 afterwards. -/
theorem refreshTopics_upserts_brokers_witness :
    exOrders.brokers ≠ ∅ ∧ Received exOrders (envOf respX) [] respX ∧
    AllConnect (envOf respX).connect respX.Brokers ∧
    (∀ k, (∃ b ∈ respX.Brokers, b.id = k) →
      ∃ pre b post, respX.Brokers = pre ++ b :: post ∧ b.id = k ∧ (∀ c ∈ post, c.id ≠ k) ∧
        (exOrders.refreshTopics (envOf respX) []).mc.brokers.lookup k = some b) ∧
    (exOrders.refreshTopics (envOf respX) []).mc.brokers.lookup 2 = some node2 :=
  have h1 : exOrders.brokers ≠ ∅ := ne_empty_of_lookup (k := 1) (v := nodeA) rfl
  have h2 : Received exOrders (envOf respX) [] respX := fun _ _ => rfl
  have h3 : AllConnect (envOf respX).connect respX.Brokers := fun _ _ => rfl
  ⟨h1, h2, h3, refreshTopics_upserts_brokers exOrders (envOf respX) [] respX h1 h2 h3, rfl⟩

/-! ## Refresh on an empty registry -/

/-- C8: on a cache whose registry is empty, `refreshTopics` returns
`OutOfBrokers` for every topic list, takes and releases the shared lock and
does nothing else (no send, no connect), and leaves the cache unchanged;
`refreshTopic` does the same for every topic name. -/
theorem refreshTopics_out_of_brokers (mc : metadataCache) (env : Env) (topics : List String)
    (t : String) (hempty : mc.brokers = ∅) :
    ((mc.refreshTopics env topics).err = some GoError.OutOfBrokers ∧
      (mc.refreshTopics env topics).trace = [Event.RLock, Event.RUnlock] ∧
      (∀ b c ts, Event.Send b c ts ∉ (mc.refreshTopics env topics).trace) ∧
      (mc.refreshTopics env topics).mc = mc) ∧
    ((mc.refreshTopic env t).err = some GoError.OutOfBrokers ∧
      (mc.refreshTopic env t).trace = [Event.RLock, Event.RUnlock] ∧
      (∀ b c ts, Event.Send b c ts ∉ (mc.refreshTopic env t).trace) ∧
      (mc.refreshTopic env t).mc = mc) := by
  have hany : mc.any env.pick = none := (any_eq_none_iff mc env.pick).mpr hempty
  have key : ∀ l, mc.refreshTopics env l =
      { mc := mc, err := some GoError.OutOfBrokers, trace := [Event.RLock, Event.RUnlock] } := by
    intro l
    unfold refreshTopics
    rw [hany]
  unfold refreshTopic
  rw [key topics, key [t]]
  simp

/-- Witness of `refreshTopics_out_of_brokers` on the cache with an empty
registry, with the empty topic list and with the topic "x". -/
theorem refreshTopics_out_of_brokers_witness :
    exEmpty.brokers = ∅ ∧
    (exEmpty.refreshTopics (envOf respX) []).err = some GoError.OutOfBrokers ∧
    (exEmpty.refreshTopics (envOf respX) []).mc = exEmpty ∧
    (exEmpty.refreshTopic (envOf respX) "x").err = some GoError.OutOfBrokers :=
  have h := refreshTopics_out_of_brokers exEmpty (envOf respX) [] "x" rfl
  ⟨rfl, h.1.1, h.1.2.2.2, h.2.1⟩

/-! ## The merge processes the response in order and stops at the first failure -/

/-- Processing items one at a time writes the items before the first failure
and returns that failure. -/
theorem runItems_eq (connect : Broker → Option GoError) (items : List Item)
    (mc : metadataCache) :
    runItems connect items mc =
      ((itemsBeforeFailure connect items).foldl (fun s i => i.write s) mc,
        firstFailure connect items) := by
  induction items generalizing mc with
  | nil => rfl
  | cons i rest ih =>
    unfold runItems
    cases h : i.check connect with
    | none =>
      simp only [itemsBeforeFailure, firstFailure, List.takeWhile_cons, h, Option.isNone_none,
        if_true, List.foldl_cons, List.findSome?_cons]
      exact ih _
    | some e =>
      simp [itemsBeforeFailure, firstFailure, List.takeWhile_cons, h, List.findSome?_cons]

/-- The inner loop is the processing of the partition items. -/
theorem runItems_partitions (connect : Broker → Option GoError) (name : String)
    (ps : List PartitionMetadata) (rest : List Item) (mc : metadataCache) :
    runItems connect (ps.map (Item.partition name) ++ rest) mc =
      match (recordPartitions name ps mc.leaders).2 with
      | some e => ({ mc with leaders := (recordPartitions name ps mc.leaders).1 }, some e)
      | none => runItems connect rest
          { mc with leaders := (recordPartitions name ps mc.leaders).1 } := by
  induction ps generalizing mc with
  | nil => rfl
  | cons p ps ih =>
    by_cases hp : p.Err = NO_ERROR
    · simp only [List.map_cons, List.cons_append, runItems, Item.check, codeError, hp, ne_eq,
        not_true_eq_false, if_false, recordPartitions]
      exact ih ((Item.partition name p).write mc)
    · simp [runItems, Item.check, codeError, hp, recordPartitions]

/-- The topic loop is the processing of the topic items. -/
theorem runItems_topics (connect : Broker → Option GoError) (ts : List TopicMetadata)
    (mc : metadataCache) :
    runItems connect (topicItems ts) mc =
      ({ mc with leaders := (recordTopics ts mc.leaders).1 }, (recordTopics ts mc.leaders).2) := by
  induction ts generalizing mc with
  | nil => rfl
  | cons t ts ih =>
    by_cases ht : t.Err = NO_ERROR
    · simp only [topicItems, runItems, Item.check, codeError, ht, ne_eq, not_true_eq_false,
        if_false, recordTopics]
      rw [runItems_partitions]
      simp only [Item.write]
      cases h : recordPartitions t.Name t.Partitions (mc.leaders.insert t.Name ∅) with
      | mk l1 e1 =>
        cases e1 with
        | none => exact ih _
        | some e => rfl
    · simp [topicItems, runItems, Item.check, codeError, ht, recordTopics]

/-- The broker loop is the processing of the broker items. -/
theorem runItems_brokers (connect : Broker → Option GoError) (bs : List Broker)
    (rest : List Item) (mc : metadataCache) (tr : List Event) :
    runItems connect (bs.map Item.broker ++ rest) mc =
      match (connectBrokers connect bs (mc, tr)).2 with
      | some e => ((connectBrokers connect bs (mc, tr)).1.1, some e)
      | none => runItems connect rest (connectBrokers connect bs (mc, tr)).1.1 := by
  induction bs generalizing mc tr with
  | nil => rfl
  | cons b bs ih =>
    cases hb : connect b with
    | none =>
      simp only [List.map_cons, List.cons_append, runItems, Item.check, hb, connectBrokers]
      exact ih _ _
    | some e => simp [runItems, Item.check, hb, connectBrokers]

/-- The merge is the processing of the items of the response. -/
theorem merge_eq_runItems (connect : Broker → Option GoError) (mc : metadataCache)
    (resp : MetadataResponse) (tr : List Event) :
    ((merge connect mc resp tr).mc, (merge connect mc resp tr).err) =
      runItems connect (itemsOf resp) mc := by
  unfold itemsOf
  rw [runItems_brokers connect resp.Brokers _ mc (tr ++ [Event.Lock])]
  unfold merge
  cases h : connectBrokers connect resp.Brokers (mc, tr ++ [Event.Lock]) with
  | mk s e =>
    obtain ⟨mc1, tr1⟩ := s
    cases e with
    | some e => rfl
    | none =>
      simp only [runItems_topics]

/-- The items of a list of topics are the topics and their partitions. -/
theorem mem_topicItems (ts : List TopicMetadata) (i : Item) :
    i ∈ topicItems ts ↔
      ∃ t ∈ ts, i = Item.topic t ∨ ∃ p ∈ t.Partitions, i = Item.partition t.Name p := by
  induction ts with
  | nil => simp [topicItems]
  | cons t ts ih =>
    simp only [topicItems, List.mem_cons, List.mem_append, List.mem_map, ih,
      exists_eq_or_imp]
    constructor
    · rintro (h | ⟨p, hp, rfl⟩ | h)
      · exact Or.inl (Or.inl h)
      · exact Or.inl (Or.inr ⟨p, hp, rfl⟩)
      · exact Or.inr h
    · rintro ((h | ⟨p, hp, rfl⟩) | h)
      · exact Or.inl h
      · exact Or.inr (Or.inl ⟨p, hp, rfl⟩)
      · exact Or.inr (Or.inr h)

/-- An error code is no error exactly when it is `NO_ERROR`. -/
theorem codeError_eq_none (c : KError) : codeError c = none ↔ c = NO_ERROR := by
  unfold codeError
  by_cases h : c = NO_ERROR <;> simp [h]

/-- No item of a response fails exactly when every node connects and every
topic and partition carries `NO_ERROR`. -/
theorem firstFailure_eq_none (connect : Broker → Option GoError) (resp : MetadataResponse) :
    firstFailure connect (itemsOf resp) = none ↔
      AllConnect connect resp.Brokers ∧ TopicsOk resp.Topics := by
  unfold firstFailure
  rw [List.findSome?_eq_none_iff]
  constructor
  · intro h
    refine ⟨fun b hb => ?_, fun t ht => ⟨?_, fun p hp => ?_⟩⟩
    · exact h (Item.broker b) (List.mem_append_left _ (List.mem_map_of_mem _ hb))
    · exact (codeError_eq_none _).mp
        (h (Item.topic t) (List.mem_append_right _
          ((mem_topicItems _ _).mpr ⟨t, ht, Or.inl rfl⟩)))
    · exact (codeError_eq_none _).mp
        (h (Item.partition t.Name p) (List.mem_append_right _
          ((mem_topicItems _ _).mpr ⟨t, ht, Or.inr ⟨p, hp, rfl⟩⟩)))
  · rintro ⟨hb, ht⟩ i hi
    rcases List.mem_append.mp hi with hi | hi
    · obtain ⟨b, hmem, rfl⟩ := List.mem_map.mp hi
      exact hb b hmem
    · obtain ⟨t, hmem, rfl | ⟨p, hp, rfl⟩⟩ := (mem_topicItems _ _).mp hi
      · exact (codeError_eq_none _).mpr (ht t hmem).1
      · exact (codeError_eq_none _).mpr ((ht t hmem).2 p hp)

/-- C9: with a registry that is not empty and a received response,
`refreshTopics` returns no error exactly when every reported node connects and
every topic and partition carries `NO_ERROR`; in every case it returns the
first failure of the response in processing order (the nodes in response order,
then each topic followed by its partitions), and the cache afterwards is the
cache before with the writes of exactly the items before that failure: nothing
at or after the failure point is written. -/
theorem refreshTopics_first_failure (mc : metadataCache) (env : Env) (topics : List String)
    (resp : MetadataResponse) (hne : mc.brokers ≠ ∅) (hrecv : Received mc env topics resp) :
    ((mc.refreshTopics env topics).err = none ↔
      AllConnect env.connect resp.Brokers ∧ TopicsOk resp.Topics) ∧
    (mc.refreshTopics env topics).err = firstFailure env.connect (itemsOf resp) ∧
    (mc.refreshTopics env topics).mc =
      (itemsBeforeFailure env.connect (itemsOf resp)).foldl (fun s i => i.write s) mc := by
  obtain ⟨b, -, hrun⟩ := refreshTopics_eq_merge mc env topics resp hne hrecv
  have h := merge_eq_runItems env.connect mc resp
    [Event.RLock, Event.RUnlock, Event.Send b mc.client topics]
  rw [← hrun, runItems_eq] at h
  have herr : (mc.refreshTopics env topics).err = firstFailure env.connect (itemsOf resp) :=
    congrArg Prod.snd h
  refine ⟨?_, herr, congrArg Prod.fst h⟩
  rw [herr]
  exact firstFailure_eq_none env.connect resp

/-- Witness of `refreshTopics_first_failure`: the example state refreshed with
a response whose second partition carries the error code 3 returns that code,
and has written node 2 and the first partition only. -/
theorem refreshTopics_first_failure_witness :
    exOrders.brokers ≠ ∅ ∧ Received exOrders (envOf respBadSecond) [] respBadSecond ∧
    (exOrders.refreshTopics (envOf respBadSecond) []).err =
      firstFailure (envOf respBadSecond).connect (itemsOf respBadSecond) ∧
    (exOrders.refreshTopics (envOf respBadSecond) []).err = some (GoError.Protocol 3) ∧
    (exOrders.refreshTopics (envOf respBadSecond) []).mc.leaders.lookup "orders" =
      some ((∅ : PartitionMap).insert 4 2) :=
  have h1 : exOrders.brokers ≠ ∅ := ne_empty_of_lookup (k := 1) (v := nodeA) rfl
  have h2 : Received exOrders (envOf respBadSecond) [] respBadSecond := fun _ _ => rfl
  ⟨h1, h2,
    (refreshTopics_first_failure exOrders (envOf respBadSecond) [] respBadSecond h1 h2).2.1,
    rfl, rfl⟩

/-! ## A refresh that aborts on a topic or partition error -/

/-- The topic loop stops at a topic with a topic-level error code, before
writing anything for it. -/
theorem recordTopics_cons_err (t : TopicMetadata) (ts : List TopicMetadata)
    (leaders : LeaderMap) (ht : t.Err ≠ NO_ERROR) :
    recordTopics (t :: ts) leaders = (leaders, some (GoError.Protocol t.Err)) := by
  simp [recordTopics, ht]

/-- The topic loop stops at a partition with an error code, after storing the
map of the partitions listed before it under the name of the topic. -/
theorem recordTopics_cons_partition_err (t : TopicMetadata) (ts : List TopicMetadata)
    (leaders : LeaderMap) (ps1 ps2 : List PartitionMetadata) (q : PartitionMetadata)
    (ht : t.Err = NO_ERROR) (hps : t.Partitions = ps1 ++ q :: ps2) (hok : PartitionsOk ps1)
    (hq : q.Err ≠ NO_ERROR) :
    recordTopics (t :: ts) leaders =
      (leaders.insert t.Name (partitionMapOf ps1 ∅), some (GoError.Protocol q.Err)) := by
  simp only [recordTopics, ht, ne_eq, not_true_eq_false, if_false]
  rw [hps, recordPartitions_err _ _ _ _ _ _ hok hq]

/-- C7, as stated, fails: `respRepeat` lists the topic "a" without error at
index 0 and again at index 1 with the topic-level error code 5; every
hypothesis of the claim holds with k = 1, the refresh returns that error, and
the partition map cached for topic 1 (named "a") is not what it was before the
call. -/
theorem refreshTopics_topic_error_counterexample :
    exOrders.brokers ≠ ∅ ∧ Received exOrders (envOf respRepeat) [] respRepeat ∧
    AllConnect (envOf respRepeat).connect respRepeat.Brokers ∧
    TopicsOk (respRepeat.Topics.take 1) ∧
    (∃ t, respRepeat.Topics.get? 1 = some t ∧ t.Err = 5 ∧ t.Err ≠ NO_ERROR ∧ t.Name = "a") ∧
    (exOrders.refreshTopics (envOf respRepeat) []).err = some (GoError.Protocol 5) ∧
    exOrders.leaders.lookup "a" = none ∧
    (exOrders.refreshTopics (envOf respRepeat) []).mc.leaders.lookup "a" =
      some ((∅ : PartitionMap).insert 0 1) ∧
    (exOrders.refreshTopics (envOf respRepeat) []).mc.leaders.lookup "a" ≠
      exOrders.leaders.lookup "a" := by
  refine ⟨ne_empty_of_lookup (k := 1) (v := nodeA) rfl, fun _ _ => rfl, fun _ _ => rfl, ?_,
    ⟨_, rfl, rfl, by decide, rfl⟩, rfl, rfl, rfl, ?_⟩
  · simp [TopicsOk, PartitionsOk, respRepeat]
  · intro h
    have h2 : (exOrders.refreshTopics (envOf respRepeat) []).mc.leaders.lookup "a" =
      some ((∅ : PartitionMap).insert 0 1) := rfl
    have h3 : exOrders.leaders.lookup "a" = none := rfl
    rw [h2, h3] at h
    exact Option.noConfusion h

/-- C7, amended: with a registry that is not empty and a response whose nodes
all connect, whose first k topics `pre` (and all their partitions) carry
`NO_ERROR` and whose topic `t` at index k carries a topic-level error code:
`refreshTopics` returns that code, the cache afterwards is the cache after the
successful refresh of the response truncated to its first k topics, and the
partition map cached under every name that none of the first k topics carries
(topic k itself when its name is not among them, and the topics appearing only
after index k) is what it was before the call. -/
theorem refreshTopics_topic_error (mc : metadataCache) (env : Env) (topics : List String)
    (resp : MetadataResponse) (pre post : List TopicMetadata) (t : TopicMetadata)
    (hne : mc.brokers ≠ ∅) (hrecv : Received mc env topics resp)
    (hconn : AllConnect env.connect resp.Brokers) (hl : resp.Topics = pre ++ t :: post)
    (hpre : TopicsOk pre) (hE : t.Err ≠ NO_ERROR) :
    (mc.refreshTopics env topics).err = some (GoError.Protocol t.Err) ∧
    resp.Topics.take pre.length = pre ∧
    (mc.refreshTopics (answering env { resp with Topics := pre }) topics).err = none ∧
    (mc.refreshTopics env topics).mc =
      (mc.refreshTopics (answering env { resp with Topics := pre }) topics).mc ∧
    (∀ n, (∀ u ∈ pre, u.Name ≠ n) →
      (mc.refreshTopics env topics).mc.leaders.lookup n = mc.leaders.lookup n) := by
  obtain ⟨b, -, hrun⟩ := refreshTopics_eq_merge mc env topics resp hne hrecv
  have hrecv2 : Received mc (answering env { resp with Topics := pre }) topics
      { resp with Topics := pre } := fun _ _ => rfl
  obtain ⟨b2, -, hrun2⟩ := refreshTopics_eq_merge mc _ topics _ hne hrecv2
  have hconn2 : AllConnect (answering env { resp with Topics := pre }).connect
      ({ resp with Topics := pre } : MetadataResponse).Brokers := hconn
  rw [hrun, hrun2, merge_of_allConnect _ _ _ _ hconn, merge_of_allConnect _ _ _ _ hconn2]
  have hsplit := recordTopics_append_ok pre (t :: post) mc.leaders hpre
  rw [recordTopics_cons_err _ _ _ hE] at hsplit
  simp only [hl, hsplit.2, hsplit.1]
  refine ⟨trivial, by simp, trivial, trivial, fun n hn => ?_⟩
  exact recordTopics_lookup_of_not_mem pre mc.leaders n hn

/-- Witness of `refreshTopics_topic_error`: the example state refreshed with a
response whose second topic "orders" carries the error code 5 returns that
code, keeps the map of "orders" and has stored the map of the first topic. -/
theorem refreshTopics_topic_error_witness :
    exOrders.brokers ≠ ∅ ∧ Received exOrders (envOf respBadTopic) [] respBadTopic ∧
    AllConnect (envOf respBadTopic).connect respBadTopic.Brokers ∧
    (exOrders.refreshTopics (envOf respBadTopic) []).err = some (GoError.Protocol 5) ∧
    (exOrders.refreshTopics (envOf respBadTopic) []).mc.leaders.lookup "orders" =
      exOrders.leaders.lookup "orders" ∧
    (exOrders.refreshTopics (envOf respBadTopic) []).mc.leaders.lookup "x" =
      some ((∅ : PartitionMap).insert 0 2) :=
  have h1 : exOrders.brokers ≠ ∅ := ne_empty_of_lookup (k := 1) (v := nodeA) rfl
  have h2 : Received exOrders (envOf respBadTopic) [] respBadTopic := fun _ _ => rfl
  have h3 : AllConnect (envOf respBadTopic).connect respBadTopic.Brokers := fun _ _ => rfl
  have h4 : TopicsOk [topicX] := by
    simp [TopicsOk, PartitionsOk, topicX]
  have h := refreshTopics_topic_error exOrders (envOf respBadTopic) [] respBadTopic
    [topicX] [] topicOrdersErr h1 h2 h3 rfl h4 (by decide)
  ⟨h1, h2, h3, h.1, h.2.2.2.2 "orders" (by simp [topicX]), rfl⟩

/-- C10, as stated, fails: in `exOrders` the topic "orders" is cached with the
partitions 0 and 1; the response lists "orders" with `NO_ERROR` and a partition
carrying the error code 3; `refreshTopics` aborts with that error and the
partition map cached for "orders" is then the empty map, not the map cached
before the call, and `partitions` and `leader` have changed with it. -/
theorem refreshTopics_partition_error_counterexample :
    exOrders.brokers ≠ ∅ ∧ Received exOrders (envOf respBadPartition) [] respBadPartition ∧
    (∃ t ∈ respBadPartition.Topics, t.Name = "orders" ∧ t.Err = NO_ERROR ∧
      ∃ p ∈ t.Partitions, p.Err = 3 ∧ p.Err ≠ NO_ERROR) ∧
    exOrders.leaders.lookup "orders" = some (((∅ : PartitionMap).insert 0 1).insert 1 (-1)) ∧
    (exOrders.refreshTopics (envOf respBadPartition) []).err = some (GoError.Protocol 3) ∧
    (exOrders.refreshTopics (envOf respBadPartition) []).mc.leaders.lookup "orders" = some ∅ ∧
    (exOrders.refreshTopics (envOf respBadPartition) []).mc.leaders.lookup "orders" ≠
      exOrders.leaders.lookup "orders" ∧
    exOrders.partitions "orders" = some [0, 0, 0, 1] ∧
    (exOrders.refreshTopics (envOf respBadPartition) []).mc.partitions "orders" = some [] ∧
    exOrders.leader "orders" 0 = some nodeA ∧
    (exOrders.refreshTopics (envOf respBadPartition) []).mc.leader "orders" 0 = none := by
  refine ⟨ne_empty_of_lookup (k := 1) (v := nodeA) rfl, fun _ _ => rfl,
    ⟨_, List.mem_singleton.mpr rfl, rfl, rfl, _, List.mem_singleton.mpr rfl, rfl, by decide⟩,
    rfl, rfl, rfl, ?_, rfl, rfl, rfl, rfl⟩
  intro h
  have h2 : (exOrders.refreshTopics (envOf respBadPartition) []).mc.leaders.lookup "orders" =
    some ∅ := rfl
  have h3 : exOrders.leaders.lookup "orders" =
    some (((∅ : PartitionMap).insert 0 1).insert 1 (-1)) := rfl
  rw [h2, h3] at h
  have h4 := congrArg (fun o : Option PartitionMap => o.map (fun m => m.keys.length)) h
  exact absurd h4 (by decide)

/-- C10, amended: with a registry that is not empty and a response whose nodes
all connect, whose topics before `X` carry no error, in which `X` has
`NO_ERROR` at topic level and its partition `q` is the first with an error
code: `refreshTopics` aborts with the error of `q`, and the partition map
cached for `X` afterwards is the map built from the partitions of `X` listed
before `q`; what was cached for `X` before the call is dropped. -/
theorem refreshTopics_partition_error (mc : metadataCache) (env : Env) (topics : List String)
    (resp : MetadataResponse) (pre post : List TopicMetadata) (X : TopicMetadata)
    (ps1 ps2 : List PartitionMetadata) (q : PartitionMetadata)
    (hne : mc.brokers ≠ ∅) (hrecv : Received mc env topics resp)
    (hconn : AllConnect env.connect resp.Brokers) (hl : resp.Topics = pre ++ X :: post)
    (hpre : TopicsOk pre) (hX : X.Err = NO_ERROR) (hps : X.Partitions = ps1 ++ q :: ps2)
    (hok : PartitionsOk ps1) (hq : q.Err ≠ NO_ERROR) :
    (mc.refreshTopics env topics).err = some (GoError.Protocol q.Err) ∧
    (mc.refreshTopics env topics).mc.leaders.lookup X.Name = some (partitionMapOf ps1 ∅) ∧
    (∀ p, p ∈ partitionMapOf ps1 ∅ ↔ ∃ r ∈ ps1, r.Id = p) ∧
    (mc.refreshTopics env topics).mc.partitions X.Name =
      some (partitionsIn (partitionMapOf ps1 ∅).keys) := by
  obtain ⟨b, -, hrun⟩ := refreshTopics_eq_merge mc env topics resp hne hrecv
  have hsplit := recordTopics_append_ok pre (X :: post) mc.leaders hpre
  rw [recordTopics_cons_partition_err _ _ _ _ _ _ hX hps hok hq] at hsplit
  have hlook : (mc.refreshTopics env topics).mc.leaders.lookup X.Name =
      some (partitionMapOf ps1 ∅) := by
    rw [hrun, merge_of_allConnect _ _ _ _ hconn]
    simp only [hl, hsplit.2]
    exact AList.lookup_insert _
  refine ⟨?_, hlook, fun p => ?_, ?_⟩
  · rw [hrun, merge_of_allConnect _ _ _ _ hconn]
    simp only [hl, hsplit.2]
  · rw [mem_partitionMapOf]
    simp [AList.not_mem_empty]
  · unfold partitions
    rw [hlook]

/-- Witness of `refreshTopics_partition_error`: the example state refreshed
with a response in which the second partition of "orders" carries the error
code 3 ends with the map {4: 2} for "orders". -/
theorem refreshTopics_partition_error_witness :
    exOrders.brokers ≠ ∅ ∧ Received exOrders (envOf respBadSecond) [] respBadSecond ∧
    AllConnect (envOf respBadSecond).connect respBadSecond.Brokers ∧
    (exOrders.refreshTopics (envOf respBadSecond) []).err = some (GoError.Protocol 3) ∧
    (exOrders.refreshTopics (envOf respBadSecond) []).mc.leaders.lookup "orders" =
      some (partitionMapOf [partitionGood] ∅) :=
  have h1 : exOrders.brokers ≠ ∅ := ne_empty_of_lookup (k := 1) (v := nodeA) rfl
  have h2 : Received exOrders (envOf respBadSecond) [] respBadSecond := fun _ _ => rfl
  have h3 : AllConnect (envOf respBadSecond).connect respBadSecond.Brokers := fun _ _ => rfl
  have h := refreshTopics_partition_error exOrders (envOf respBadSecond) [] respBadSecond
    [] [] topicBadSecond [partitionGood] [] partitionBad
    h1 h2 h3 rfl (by simp [TopicsOk]) rfl rfl (by simp [PartitionsOk, partitionGood])
    (by decide)
  ⟨h1, h2, h3, h.1, h.2.1⟩

/-! ## Finite maps: storing a list of entries -/

/-- Storing a list of entries into the union of two maps stores them into the
first. -/
theorem foldl_insert_union {ι K V : Type} [DecidableEq K] (f : ι → K) (g : ι → V) (L : List ι)
    (s m : AList (fun _ : K => V)) :
    L.foldl (fun m x => m.insert (f x) (g x)) (s ∪ m) =
      L.foldl (fun m x => m.insert (f x) (g x)) s ∪ m := by
  induction L generalizing s with
  | nil => rfl
  | cons x L ih =>
    simp only [List.foldl_cons]
    rw [AList.insert_union]
    exact ih _

/-- A list of entries merged twice is merged once. -/
theorem kunion_kunion_self {K : Type} {β : K → Type} [DecidableEq K] (l l2 : List (Sigma β)) :
    List.kunion l (List.kunion l l2) = List.kunion l l2 := by
  induction l generalizing l2 with
  | nil => rfl
  | cons s l ih =>
    simp only [List.kunion_cons]
    rw [List.kerase_cons_eq rfl, ih]

/-- Storing a list of entries twice is storing it once. -/
theorem foldl_insert_idem {ι K V : Type} [DecidableEq K] (f : ι → K) (g : ι → V) (L : List ι)
    (m : AList (fun _ : K => V)) :
    L.foldl (fun m x => m.insert (f x) (g x)) (L.foldl (fun m x => m.insert (f x) (g x)) m) =
      L.foldl (fun m x => m.insert (f x) (g x)) m := by
  have h : ∀ m : AList (fun _ : K => V), L.foldl (fun m x => m.insert (f x) (g x)) m =
      L.foldl (fun m x => m.insert (f x) (g x)) ∅ ∪ m := by
    intro m
    have := foldl_insert_union f g L ∅ m
    rwa [AList.empty_union] at this
  rw [h (L.foldl (fun m x => m.insert (f x) (g x)) m), h m]
  apply AList.ext
  simp only [AList.union_entries]
  exact kunion_kunion_self _ _

/-- Storing entries keeps every key of the map. -/
theorem mem_foldl_insert {ι K V : Type} [DecidableEq K] (f : ι → K) (g : ι → V) (L : List ι)
    (m : AList (fun _ : K => V)) (k : K) (hk : k ∈ m) :
    k ∈ L.foldl (fun m x => m.insert (f x) (g x)) m := by
  induction L generalizing m with
  | nil => exact hk
  | cons x L ih =>
    exact ih _ ((AList.mem_insert m).mpr (Or.inr hk))

/-- Storing entries makes every stored key a key of the map. -/
theorem mem_foldl_insert_of_mem {ι K V : Type} [DecidableEq K] (f : ι → K) (g : ι → V)
    (L : List ι) (m : AList (fun _ : K => V)) (x : ι) (hx : x ∈ L) :
    f x ∈ L.foldl (fun m x => m.insert (f x) (g x)) m := by
  induction L generalizing m with
  | nil => cases hx
  | cons y L ih =>
    rcases List.mem_cons.mp hx with rfl | h
    · exact mem_foldl_insert f g L _ _ ((AList.mem_insert m).mpr (Or.inl rfl))
    · exact ih _ h

/-- A value found after storing entries is a stored one or was there before. -/
theorem lookup_foldl_insert {ι K V : Type} [DecidableEq K] (f : ι → K) (g : ι → V) (L : List ι)
    (m : AList (fun _ : K => V)) (k : K) (v : V)
    (h : (L.foldl (fun m x => m.insert (f x) (g x)) m).lookup k = some v) :
    (∃ x ∈ L, f x = k ∧ g x = v) ∨ m.lookup k = some v := by
  induction L generalizing m with
  | nil => exact Or.inr h
  | cons x L ih =>
    rcases ih _ h with ⟨y, hy, hfy, hgy⟩ | h2
    · exact Or.inl ⟨y, List.mem_cons_of_mem _ hy, hfy, hgy⟩
    · by_cases hk : k = f x
      · subst hk
        rw [AList.lookup_insert] at h2
        exact Or.inl ⟨x, List.mem_cons_self _ _, rfl, Option.some.inj h2⟩
      · rw [AList.lookup_insert_ne hk] at h2
        exact Or.inr h2

/-- A key that no stored entry carries keeps its value. -/
theorem lookup_foldl_insert_of_not_mem {ι K V : Type} [DecidableEq K] (f : ι → K) (g : ι → V)
    (L : List ι) (m : AList (fun _ : K => V)) (k : K) (hk : ∀ x ∈ L, f x ≠ k) :
    (L.foldl (fun m x => m.insert (f x) (g x)) m).lookup k = m.lookup k := by
  induction L generalizing m with
  | nil => rfl
  | cons x L ih =>
    have hx : k ≠ f x := fun h => hk x (List.mem_cons_self _ _) h.symm
    simp only [List.foldl_cons]
    rw [ih _ (fun y hy => hk y (List.mem_cons_of_mem _ hy)), AList.lookup_insert_ne hx]

/-- Either every element of a list is good, or the list has a first bad
element. -/
theorem all_or_first_bad {α : Type} (P : α → Prop) (l : List α) :
    (∀ x ∈ l, P x) ∨ ∃ pre x post, l = pre ++ x :: post ∧ (∀ y ∈ pre, P y) ∧ ¬ P x := by
  induction l with
  | nil => exact Or.inl (fun x hx => absurd hx (List.not_mem_nil x))
  | cons a l ih =>
    by_cases ha : P a
    · rcases ih with h | ⟨pre, x, post, hl, hpre, hx⟩
      · left
        intro x hx
        rcases List.mem_cons.mp hx with rfl | hx
        · exact ha
        · exact h x hx
      · right
        refine ⟨a :: pre, x, post, by rw [hl]; rfl, ?_, hx⟩
        intro y hy
        rcases List.mem_cons.mp hy with rfl | hy
        · exact ha
        · exact hpre y hy
    · exact Or.inr ⟨[], a, l, rfl, fun y hy => absurd hy (List.not_mem_nil y), ha⟩

/-! ## The shape of every merge -/

/-- The topic loop over topics without errors stores the partition map of each
topic under its name, in order. -/
theorem recordTopics_ok_eq_foldl (ts : List TopicMetadata) (leaders : LeaderMap)
    (hok : TopicsOk ts) :
    (recordTopics ts leaders).1 =
      ts.foldl (fun l t => l.insert t.Name (partitionMapOf t.Partitions ∅)) leaders := by
  induction ts generalizing leaders with
  | nil => rfl
  | cons t ts ih =>
    have ht := hok t (List.mem_cons_self _ _)
    have hts : TopicsOk ts := fun u hu => hok u (List.mem_cons_of_mem _ hu)
    rw [recordTopics_cons_ok _ _ _ ht.1 ht.2, ih _ hts]
    rfl

/-- The merge of a response whose broker `b` is the first that fails to
connect. -/
theorem merge_of_connect_err (connect : Broker → Option GoError) (mc : metadataCache)
    (resp : MetadataResponse) (tr : List Event) (bs1 bs2 : List Broker) (b : Broker)
    (e : GoError) (hl : resp.Brokers = bs1 ++ b :: bs2) (hok : AllConnect connect bs1)
    (hb : connect b = some e) :
    merge connect mc resp tr =
      { mc := { mc with brokers := registerAll bs1 mc.brokers }
        err := some e
        trace := tr ++ [Event.Lock] ++ (bs1 ++ [b]).map Event.Connect ++ [Event.Unlock] } := by
  unfold merge
  rw [hl, connectBrokers_err connect _ _ _ _ _ _ hok hb]
  simp

/-- Every merge stores a sublist `bs` of the reported brokers and then runs the
topic loop over a list `ts` of topics without errors taken from the response;
`bs`, `ts`, the connects `cs` and the returned error depend on the response and
on the outcomes of the connects only, not on the cache. -/
theorem merge_normal_form (connect : Broker → Option GoError) (resp : MetadataResponse) :
    ∃ (bs : List Broker) (ts : List TopicMetadata) (cs : List Broker) (e : Option GoError),
      TopicsOk ts ∧ (∀ b ∈ bs, b ∈ resp.Brokers) ∧ (ts ≠ [] → bs = resp.Brokers) ∧
      (∀ t ∈ ts, ∃ u ∈ resp.Topics, u.Name = t.Name ∧ ∀ p ∈ t.Partitions, p ∈ u.Partitions) ∧
      ∀ (mc : metadataCache) (tr : List Event), merge connect mc resp tr =
        { mc := { mc with brokers := registerAll bs mc.brokers
                          leaders := (recordTopics ts mc.leaders).1 }
          err := e
          trace := tr ++ [Event.Lock] ++ cs.map Event.Connect ++ [Event.Unlock] } := by
  rcases all_or_first_bad (fun b => connect b = none) resp.Brokers with
    hconn | ⟨bs1, b, bs2, hl, hok, hb⟩
  · rcases all_or_first_bad (fun t : TopicMetadata => t.Err = NO_ERROR ∧ PartitionsOk t.Partitions)
      resp.Topics with htop | ⟨pre, t, post, hts, hpre, ht⟩
    · refine ⟨resp.Brokers, resp.Topics, resp.Brokers, none, htop, fun _ h => h, fun _ => rfl,
        fun t ht => ⟨t, ht, rfl, fun _ h => h⟩, fun mc tr => ?_⟩
      rw [merge_of_allConnect _ _ _ _ hconn, recordTopics_ok _ _ htop]
    · have hsplit := fun l => recordTopics_append_ok pre (t :: post) l hpre
      by_cases hE : t.Err = NO_ERROR
      · have hps : ¬ PartitionsOk t.Partitions := fun h => ht ⟨hE, h⟩
        rcases all_or_first_bad (fun p : PartitionMetadata => p.Err = NO_ERROR) t.Partitions with
          hall | ⟨ps1, q, ps2, hpl, hps1, hq⟩
        · exact absurd hall hps
        · refine ⟨resp.Brokers, pre ++ [{ t with Partitions := ps1 }], resp.Brokers,
            some (GoError.Protocol q.Err), ?_, fun _ h => h, fun _ => rfl, ?_, fun mc tr => ?_⟩
          · intro u hu
            rcases List.mem_append.mp hu with hu | hu
            · exact hpre u hu
            · rw [List.mem_singleton.mp hu]
              exact ⟨hE, hps1⟩
          · intro u hu
            rcases List.mem_append.mp hu with hu | hu
            · exact ⟨u, by rw [hts]; exact List.mem_append_left _ hu, rfl, fun _ h => h⟩
            · rw [List.mem_singleton.mp hu]
              refine ⟨t, by rw [hts]; exact List.mem_append_right _ (List.mem_cons_self _ _),
                rfl, fun p hp => ?_⟩
              rw [hpl]
              exact List.mem_append_left _ hp
          · rw [merge_of_allConnect _ _ _ _ hconn, hts, (hsplit mc.leaders).2,
              recordTopics_cons_partition_err t post _ ps1 ps2 q hE hpl hps1 hq,
              (recordTopics_append_ok pre [{ t with Partitions := ps1 }] mc.leaders hpre).2,
              recordTopics_cons_ok { t with Partitions := ps1 } [] _ hE hps1]
            rfl
      · refine ⟨resp.Brokers, pre, resp.Brokers, some (GoError.Protocol t.Err), hpre,
          fun _ h => h, fun _ => rfl, ?_, fun mc tr => ?_⟩
        · intro u hu
          exact ⟨u, by rw [hts]; exact List.mem_append_left _ hu, rfl, fun _ h => h⟩
        · rw [merge_of_allConnect _ _ _ _ hconn, hts, (hsplit mc.leaders).2,
            recordTopics_cons_err _ _ _ hE]
  · obtain ⟨e, he⟩ := Option.ne_none_iff_exists'.mp hb
    refine ⟨bs1, [], bs1 ++ [b], some e, fun _ h => absurd h (List.not_mem_nil _), ?_,
      fun h => absurd rfl h, fun _ h => absurd h (List.not_mem_nil _), fun mc tr => ?_⟩
    · intro c hc
      rw [hl]
      exact List.mem_append_left _ hc
    · exact merge_of_connect_err connect mc resp tr bs1 bs2 b e hl hok he

/-- Every call of `refreshTopics` returns at line 87 or at line 92 with the
cache untouched, or merges the response received from the chosen broker. -/
theorem refreshTopics_cases (mc : metadataCache) (env : Env) (topics : List String) :
    (mc.brokers = ∅ ∧ mc.refreshTopics env topics =
      { mc := mc, err := some GoError.OutOfBrokers, trace := [Event.RLock, Event.RUnlock] }) ∨
    (∃ b e, mc.any env.pick = some b ∧ env.send b mc.client topics = Except.error e ∧
      mc.refreshTopics env topics =
        { mc := mc, err := some e
          trace := [Event.RLock, Event.RUnlock, Event.Send b mc.client topics] }) ∨
    (∃ b resp, mc.any env.pick = some b ∧ env.send b mc.client topics = Except.ok resp ∧
      mc.refreshTopics env topics =
        merge env.connect mc resp [Event.RLock, Event.RUnlock, Event.Send b mc.client topics]) := by
  cases hany : mc.any env.pick with
  | none =>
    left
    refine ⟨(any_eq_none_iff mc env.pick).mp hany, ?_⟩
    unfold refreshTopics
    rw [hany]
  | some b =>
    right
    cases hsend : env.send b mc.client topics with
    | error e =>
      left
      refine ⟨b, e, rfl, hsend, ?_⟩
      unfold refreshTopics
      rw [hany]
      simp only [hsend]
    | ok resp =>
      right
      refine ⟨b, resp, rfl, hsend, ?_⟩
      unfold refreshTopics
      rw [hany]
      simp only [hsend]

/-! ## A refresh never evicts -/

/-- The merge keeps every registry key and every cached topic, and leaves
alone the registry entry of every id the response does not report and the
partition map of every topic the response does not name. -/
theorem merge_frame (connect : Broker → Option GoError) (mc : metadataCache)
    (resp : MetadataResponse) (tr : List Event) :
    (∀ k, k ∈ mc.brokers → k ∈ (merge connect mc resp tr).mc.brokers) ∧
    (∀ n, n ∈ mc.leaders → n ∈ (merge connect mc resp tr).mc.leaders) ∧
    (∀ k, (∀ b ∈ resp.Brokers, b.id ≠ k) →
      (merge connect mc resp tr).mc.brokers.lookup k = mc.brokers.lookup k) ∧
    (∀ n, (∀ t ∈ resp.Topics, t.Name ≠ n) →
      (merge connect mc resp tr).mc.leaders.lookup n = mc.leaders.lookup n) := by
  obtain ⟨bs, ts, cs, e, hok, hbs, -, hts, hform⟩ := merge_normal_form connect resp
  rw [hform mc tr]
  simp only [recordTopics_ok_eq_foldl ts mc.leaders hok]
  refine ⟨fun k hk => ?_, fun n hn => ?_, fun k hk => ?_, fun n hn => ?_⟩
  · exact mem_foldl_insert (fun b : Broker => b.id) (fun b => b) bs mc.brokers k hk
  · exact mem_foldl_insert (fun t : TopicMetadata => t.Name)
      (fun t => partitionMapOf t.Partitions ∅) ts mc.leaders n hn
  · exact lookup_foldl_insert_of_not_mem (fun b : Broker => b.id) (fun b => b) bs mc.brokers k
      (fun b hb => hk b (hbs b hb))
  · refine lookup_foldl_insert_of_not_mem (fun t : TopicMetadata => t.Name)
      (fun t => partitionMapOf t.Partitions ∅) ts mc.leaders n (fun t ht => ?_)
    obtain ⟨u, hu, hname, -⟩ := hts t ht
    show t.Name ≠ n
    rw [← hname]
    exact hn u hu

/-- C11: `refreshTopics` never evicts.  Whatever the outcome of the call, every
registry key is still a key afterwards and every cached topic is still cached;
when a response is received, the registry entry of every id that the response
does not report and the partition map of every topic that the response does not
name are exactly what they were; when no response is received the cache is
unchanged. -/
theorem refreshTopics_never_evicts (mc : metadataCache) (env : Env) (topics : List String) :
    (∀ k, k ∈ mc.brokers → k ∈ (mc.refreshTopics env topics).mc.brokers) ∧
    (∀ n, n ∈ mc.leaders → n ∈ (mc.refreshTopics env topics).mc.leaders) ∧
    (∀ resp, Received mc env topics resp →
      (∀ k, (∀ b ∈ resp.Brokers, b.id ≠ k) →
        (mc.refreshTopics env topics).mc.brokers.lookup k = mc.brokers.lookup k) ∧
      (∀ n, (∀ t ∈ resp.Topics, t.Name ≠ n) →
        (mc.refreshTopics env topics).mc.leaders.lookup n = mc.leaders.lookup n)) ∧
    ((∀ resp, ¬ Received mc env topics resp) → (mc.refreshTopics env topics).mc = mc) := by
  rcases refreshTopics_cases mc env topics with
    ⟨hempty, hrun⟩ | ⟨b, e, hany, hsend, hrun⟩ | ⟨b, resp0, hany, hsend, hrun⟩
  · rw [hrun]
    exact ⟨fun _ h => h, fun _ h => h, fun _ _ => ⟨fun _ _ => rfl, fun _ _ => rfl⟩, fun _ => rfl⟩
  · rw [hrun]
    exact ⟨fun _ h => h, fun _ h => h, fun _ _ => ⟨fun _ _ => rfl, fun _ _ => rfl⟩, fun _ => rfl⟩
  · rw [hrun]
    have hf := merge_frame env.connect mc resp0
      [Event.RLock, Event.RUnlock, Event.Send b mc.client topics]
    refine ⟨hf.1, hf.2.1, fun resp hrecv => ?_, fun hno => ?_⟩
    · have heq : resp = resp0 := by
        have h := hrecv b hany
        rw [hsend] at h
        exact (Except.ok.inj h).symm
      subst heq
      exact ⟨hf.2.2.1, hf.2.2.2⟩
    · refine absurd (fun c hc => ?_) (hno resp0)
      rw [hany] at hc
      rw [← Option.some.inj hc]
      exact hsend

/-- Witness of `refreshTopics_never_evicts`: the refresh of the example state
with the example response keeps `nodeA` under 1 and the map of "orders". -/
theorem refreshTopics_never_evicts_witness :
    Received exOrders (envOf respX) [] respX ∧
    (exOrders.refreshTopics (envOf respX) []).mc.brokers.lookup 1 = exOrders.brokers.lookup 1 ∧
    (exOrders.refreshTopics (envOf respX) []).mc.leaders.lookup "orders" =
      exOrders.leaders.lookup "orders" :=
  have h2 : Received exOrders (envOf respX) [] respX := fun _ _ => rfl
  have h := (refreshTopics_never_evicts exOrders (envOf respX) []).2.2.1 respX h2
  ⟨h2, h.1 1 (by simp [respX, node2]), h.2 "orders" (by simp [respX])⟩

/-! ## Stored leader ids and the registry -/

/-- The stored leader ids of the example state are valid: 1 is a key of the
registry and -1 is the sentinel. -/
theorem leadersValid_exOrders : LeadersValid exOrders := by
  intro n m p L hn hp
  have hcase := lookup_foldl_insert (fun x : String × PartitionMap => x.1) (fun x => x.2)
    [("orders", ((∅ : PartitionMap).insert 0 1).insert 1 (-1))] ∅ n m hn
  rcases hcase with ⟨x, hx, -, hm⟩ | hnone
  · rw [List.mem_singleton.mp hx] at hm
    subst hm
    have hcase2 := lookup_foldl_insert (fun x : Int × Int => x.1) (fun x => x.2)
      [(0, 1), (1, -1)] ∅ p L hp
    rcases hcase2 with ⟨y, hy, -, hL⟩ | hnone
    · rcases List.mem_cons.mp hy with rfl | hy
      · right
        rw [← hL]
        exact AList.lookup_isSome.mp (by rfl : (exOrders.brokers.lookup 1).isSome = true)
      · rw [List.mem_singleton.mp hy] at hL
        exact Or.inl hL.symm
    · rw [AList.lookup_empty] at hnone
      exact Option.noConfusion hnone
  · rw [AList.lookup_empty] at hnone
    exact Option.noConfusion hnone

/-- C12, as stated, fails: the stored leader ids of `exOrders` are valid; the
response `respGhost` reports no node and names broker 7 as a leader; after
`refreshTopics` succeeds the leadership table holds the leader 7 for partition
0 of "x", which is neither the sentinel nor a key of the registry. -/
theorem refreshTopics_leaders_valid_counterexample :
    LeadersValid exOrders ∧ Received exOrders (envOf respGhost) [] respGhost ∧
    (exOrders.refreshTopics (envOf respGhost) []).err = none ∧
    (exOrders.refreshTopics (envOf respGhost) []).mc.leaders.lookup "x" =
      some ((∅ : PartitionMap).insert 0 7) ∧
    ((∅ : PartitionMap).insert 0 7).lookup 0 = some 7 ∧ (7 : Int) ≠ -1 ∧
    (7 : Int) ∉ (exOrders.refreshTopics (envOf respGhost) []).mc.brokers ∧
    ¬ LeadersValid (exOrders.refreshTopics (envOf respGhost) []).mc := by
  have hnot : (7 : Int) ∉ (exOrders.refreshTopics (envOf respGhost) []).mc.brokers :=
    AList.lookup_eq_none.mp rfl
  refine ⟨leadersValid_exOrders, fun _ _ => rfl, rfl, rfl, rfl, by decide, hnot, ?_⟩
  intro h
  rcases h "x" ((∅ : PartitionMap).insert 0 7) 0 7 rfl rfl with h7 | h7
  · exact absurd h7 (by decide)
  · exact hnot h7

/-- C12, amended: when every stored leader id is -1 or a key of the registry,
and every leader id of the received response is -1, a key of the registry or
the id of a node reported in the response, then after `refreshTopics` (whatever
its outcome) every stored leader id is -1 or a key of the registry. -/
theorem refreshTopics_leaders_valid (mc : metadataCache) (env : Env) (topics : List String)
    (resp : MetadataResponse) (hvalid : LeadersValid mc)
    (hrecv : Received mc env topics resp) (hknown : LeadersKnown mc resp) :
    LeadersValid (mc.refreshTopics env topics).mc := by
  rcases refreshTopics_cases mc env topics with
    ⟨-, hrun⟩ | ⟨b, e, -, -, hrun⟩ | ⟨b, resp0, hany, hsend, hrun⟩
  · rw [hrun]; exact hvalid
  · rw [hrun]; exact hvalid
  · have heq : resp = resp0 := by
      have h := hrecv b hany
      rw [hsend] at h
      exact (Except.ok.inj h).symm
    subst heq
    obtain ⟨bs, ts, cs, e, hok, hbs, hall, hts, hform⟩ := merge_normal_form env.connect resp
    rw [hrun, hform]
    intro n m p L hn hp
    simp only [recordTopics_ok_eq_foldl ts mc.leaders hok] at hn
    have hmono : ∀ k, k ∈ mc.brokers → k ∈ registerAll bs mc.brokers := fun k hk =>
      mem_foldl_insert (fun b : Broker => b.id) (fun b => b) bs mc.brokers k hk
    rcases lookup_foldl_insert (fun t : TopicMetadata => t.Name)
        (fun t => partitionMapOf t.Partitions ∅) ts mc.leaders n m hn with ⟨t, ht, -, hm⟩ | hold
    · have hm2 : partitionMapOf t.Partitions ∅ = m := hm
      rw [← hm2] at hp
      rcases lookup_foldl_insert (fun q : PartitionMetadata => q.Id) (fun q => q.Leader)
          t.Partitions ∅ p L hp with ⟨q, hq, -, hL⟩ | hnone
      · obtain ⟨u, hu, -, hsub⟩ := hts t ht
        have hL2 : q.Leader = L := hL
        rcases hknown u hu q (hsub q hq) with h1 | h2 | ⟨c, hc, hid⟩
        · exact Or.inl (hL2 ▸ h1)
        · exact Or.inr (hmono L (hL2 ▸ h2))
        · right
          have hne : ts ≠ [] := List.ne_nil_of_mem ht
          have hmem := mem_foldl_insert_of_mem (fun b : Broker => b.id) (fun b => b) bs
            mc.brokers c (by rw [hall hne]; exact hc)
          have hid2 : c.id = L := hid.trans hL2
          rw [← hid2]
          exact hmem
      · rw [AList.lookup_empty] at hnone
        exact Option.noConfusion hnone
    · rcases hvalid n m p L hold hp with h1 | h2
      · exact Or.inl h1
      · exact Or.inr (hmono L h2)

/-- Witness of `refreshTopics_leaders_valid`: the example state refreshed with
the example response, whose only leader id 2 is the id of its node. -/
theorem refreshTopics_leaders_valid_witness :
    LeadersValid exOrders ∧ Received exOrders (envOf respX) [] respX ∧
    LeadersKnown exOrders respX ∧
    LeadersValid (exOrders.refreshTopics (envOf respX) []).mc :=
  have h2 : Received exOrders (envOf respX) [] respX := fun _ _ => rfl
  have h3 : LeadersKnown exOrders respX := by
    intro t ht p hp
    simp only [respX, List.mem_singleton] at ht
    subst ht
    simp only [List.mem_singleton] at hp
    subst hp
    exact Or.inr (Or.inr ⟨node2, List.mem_singleton.mpr rfl, rfl⟩)
  ⟨leadersValid_exOrders, h2, h3,
    refreshTopics_leaders_valid exOrders (envOf respX) [] respX leadersValid_exOrders h2 h3⟩

/-! ## Construction -/

/-- The registry of the seed cache holds one entry, so `any` returns the seed
broker whatever the range order. -/
theorem any_seedCache (client : String) (starter : Broker) (pick : Nat) :
    (seedCache client starter).any pick = some starter := by
  unfold any seedCache
  simp [AList.insert_entries, Nat.mod_one]

/-- The registry of the seed cache is not empty. -/
theorem seedCache_ne_empty (client : String) (starter : Broker) :
    (seedCache client starter).brokers ≠ ∅ :=
  ne_empty_of_lookup (k := starter.id) (v := starter) (AList.lookup_insert _)

/-- A cache returned by `newMetadataCache` is the cache after the initial
refresh of the seed cache, which returned no error. -/
theorem newMetadataCache_cache (newBroker : String → Int → Except GoError Broker) (env : Env)
    (client host : String) (port : Int) (mc : metadataCache)
    (h : (newMetadataCache newBroker env client host port).cache = some mc) :
    ∃ starter, newBroker host port = Except.ok starter ∧
      ((seedCache client starter).refreshTopics env []).err = none ∧
      mc = ((seedCache client starter).refreshTopics env []).mc ∧
      (newMetadataCache newBroker env client host port).err = none ∧
      (newMetadataCache newBroker env client host port).trace =
        ((seedCache client starter).refreshTopics env []).trace := by
  unfold newMetadataCache at h ⊢
  cases hb : newBroker host port with
  | error e =>
    rw [hb] at h
    exact Option.noConfusion h
  | ok starter =>
    rw [hb] at h
    simp only at h ⊢
    cases herr : ((seedCache client starter).refreshTopics env []).err with
    | some e =>
      rw [herr] at h
      exact Option.noConfusion h
    | none =>
      simp only [herr] at h ⊢
      exact ⟨starter, rfl, herr, (Option.some.inj h).symm, trivial, rfl⟩

/-- C14: `newMetadataCache` returns no cache and the error when `NewBroker`
fails, and no cache and the error when the initial refresh fails; it never
returns both a cache and an error; when it returns a cache, the initial refresh
was sent to the seed broker with the empty topic list, and the cache is exactly
the merge of the response to it into the seed cache (registry = the seed broker
under its id, empty leadership table), a merge that returned no error. -/
theorem newMetadataCache_spec (newBroker : String → Int → Except GoError Broker) (env : Env)
    (client host : String) (port : Int) :
    (∀ e, newBroker host port = Except.error e →
      (newMetadataCache newBroker env client host port).cache = none ∧
      (newMetadataCache newBroker env client host port).err = some e) ∧
    (∀ starter e, newBroker host port = Except.ok starter →
      ((seedCache client starter).refreshTopics env []).err = some e →
      (newMetadataCache newBroker env client host port).cache = none ∧
      (newMetadataCache newBroker env client host port).err = some e) ∧
    ¬ ((newMetadataCache newBroker env client host port).cache.isSome ∧
        (newMetadataCache newBroker env client host port).err.isSome) ∧
    (∀ mc, (newMetadataCache newBroker env client host port).cache = some mc →
      ∃ starter resp, newBroker host port = Except.ok starter ∧
        env.send starter client [] = Except.ok resp ∧
        Event.Send starter client [] ∈ (newMetadataCache newBroker env client host port).trace ∧
        (∀ b c ts, Event.Send b c ts ∈ (newMetadataCache newBroker env client host port).trace →
          ts = []) ∧
        mc = (merge env.connect (seedCache client starter) resp
          [Event.RLock, Event.RUnlock, Event.Send starter client []]).mc ∧
        (merge env.connect (seedCache client starter) resp
          [Event.RLock, Event.RUnlock, Event.Send starter client []]).err = none) := by
  refine ⟨fun e he => ?_, fun starter e hb herr => ?_, ?_, fun mc hmc => ?_⟩
  · unfold newMetadataCache
    rw [he]
    exact ⟨rfl, rfl⟩
  · unfold newMetadataCache
    rw [hb]
    simp only [herr]
    exact ⟨trivial, trivial⟩
  · rintro ⟨hc, he⟩
    obtain ⟨mc, hmc⟩ := Option.isSome_iff_exists.mp hc
    obtain ⟨_, _, _, _, hnone, _⟩ := newMetadataCache_cache newBroker env client host port mc hmc
    rw [hnone] at he
    exact Bool.noConfusion he
  · obtain ⟨starter, hb, herr, hmc2, -, htr⟩ :=
      newMetadataCache_cache newBroker env client host port mc hmc
    rcases refreshTopics_cases (seedCache client starter) env [] with
      ⟨hempty, -⟩ | ⟨b, e, -, -, hrun⟩ | ⟨b, resp, hany, hsend, hrun⟩
    · exact absurd hempty (seedCache_ne_empty client starter)
    · rw [hrun] at herr
      exact Option.noConfusion herr
    · rw [any_seedCache] at hany
      have hbs : starter = b := Option.some.inj hany
      subst hbs
      have hclient : (seedCache client starter).client = client := rfl
      rw [hclient] at hsend hrun
      obtain ⟨bs, ts, cs, e, -, -, -, -, hform⟩ := merge_normal_form env.connect resp
      refine ⟨starter, resp, hb, hsend, ?_, ?_, ?_, ?_⟩
      · rw [htr, hrun, hform]
        simp
      · intro b c ts hmem
        rw [htr, hrun, hform] at hmem
        simp at hmem
        exact hmem.2.2
      · rw [hmc2, hrun]
      · rw [← hrun]
        exact herr

/-- Witness of `newMetadataCache_spec`: built from the seed `nodeA` with the
example response as the answer to the initial refresh, the constructor returns
a cache and no error, and the cache holds both brokers and the topic "x". -/
theorem newMetadataCache_spec_witness :
    (newMetadataCache seedA (envOf respX) "c" "seed.example" 9092).err = none ∧
    (∃ mc, (newMetadataCache seedA (envOf respX) "c" "seed.example" 9092).cache = some mc ∧
      mc.brokers.lookup 1 = some nodeA ∧ mc.brokers.lookup 2 = some node2 ∧
      mc.leaders.lookup "x" = some ((∅ : PartitionMap).insert 0 2)) ∧
    ¬ ((newMetadataCache seedA (envOf respX) "c" "seed.example" 9092).cache.isSome ∧
        (newMetadataCache seedA (envOf respX) "c" "seed.example" 9092).err.isSome) :=
  ⟨rfl, ⟨_, rfl, rfl, rfl, rfl⟩,
    (newMetadataCache_spec seedA (envOf respX) "c" "seed.example" 9092).2.2.1⟩

/-! ## Reachable states -/

/-- A refresh keeps every key of the registry. -/
theorem refreshTopics_keys_mono (mc : metadataCache) (env : Env) (topics : List String)
    (k : Int) (hk : k ∈ mc.brokers) : k ∈ (mc.refreshTopics env topics).mc.brokers := by
  rcases refreshTopics_cases mc env topics with
    ⟨-, hrun⟩ | ⟨b, e, -, -, hrun⟩ | ⟨b, resp, -, -, hrun⟩
  · rw [hrun]; exact hk
  · rw [hrun]; exact hk
  · rw [hrun]
    exact (merge_frame env.connect mc resp _).1 k hk

/-- A refresh keeps the registry non-empty. -/
theorem refreshTopics_brokers_ne_empty (mc : metadataCache) (env : Env) (topics : List String)
    (h : mc.brokers ≠ ∅) : (mc.refreshTopics env topics).mc.brokers ≠ ∅ := by
  have hsome : mc.any 0 ≠ none := fun hn => h ((any_eq_none_iff mc 0).mp hn)
  obtain ⟨b, hb⟩ := Option.ne_none_iff_exists'.mp hsome
  obtain ⟨k, hk⟩ := any_mem_registry mc 0 b hb
  have hmem : k ∈ mc.brokers := AList.lookup_isSome.mp (by rw [hk]; rfl)
  have hmem2 := refreshTopics_keys_mono mc env topics k hmem
  obtain ⟨v, hv⟩ := Option.isSome_iff_exists.mp (AList.lookup_isSome.mpr hmem2)
  exact ne_empty_of_lookup hv

/-- The error of a merge is the failure of one of the items of the response. -/
theorem merge_err_is_item_failure (connect : Broker → Option GoError) (mc : metadataCache)
    (resp : MetadataResponse) (tr : List Event) (e : GoError)
    (h : (merge connect mc resp tr).err = some e) :
    (∃ b ∈ resp.Brokers, connect b = some e) ∨ ∃ c, e = GoError.Protocol c := by
  have hrun := merge_eq_runItems connect mc resp tr
  rw [runItems_eq] at hrun
  have herr : (merge connect mc resp tr).err = firstFailure connect (itemsOf resp) :=
    congrArg Prod.snd hrun
  rw [h] at herr
  obtain ⟨i, hi, hcheck⟩ := List.exists_of_findSome?_eq_some herr.symm
  cases i with
  | broker b =>
    left
    rcases List.mem_append.mp hi with hi | hi
    · obtain ⟨c, hc, hcb⟩ := List.mem_map.mp hi
      cases hcb
      exact ⟨b, hc, hcheck⟩
    · obtain ⟨t, -, h1 | ⟨p, -, h2⟩⟩ := (mem_topicItems _ _).mp hi
      · cases h1
      · cases h2
  | topic t =>
    right
    simp only [Item.check, codeError] at hcheck
    split at hcheck
    · exact ⟨t.Err, (Option.some.inj hcheck).symm⟩
    · exact Option.noConfusion hcheck
  | partition n p =>
    right
    simp only [Item.check, codeError] at hcheck
    split at hcheck
    · exact ⟨p.Err, (Option.some.inj hcheck).symm⟩
    · exact Option.noConfusion hcheck

/-- C13, amended: in every cache state reachable from a successful
`newMetadataCache` by calls of `refreshTopics` and `refreshTopic` (whatever
they return), the registry is not empty; so `any` is never `nil`, every refresh
(`refreshTopic` is `refreshTopics` of one topic) passes the check of line 86
and performs its send, and a refresh returns `OutOfBrokers` only when the send
or a connect it makes returns that error itself. -/
theorem reachable_registry_ne_empty (mc : metadataCache) (h : Reachable mc) :
    mc.brokers ≠ ∅ ∧ (∀ pick, mc.any pick ≠ none) ∧
    ∀ (env : Env) (topics : List String),
      (∃ b, mc.any env.pick = some b ∧
        Event.Send b mc.client topics ∈ (mc.refreshTopics env topics).trace) ∧
      ((∀ b c ts, env.send b c ts ≠ Except.error GoError.OutOfBrokers) →
        (∀ b, env.connect b ≠ some GoError.OutOfBrokers) →
        (mc.refreshTopics env topics).err ≠ some GoError.OutOfBrokers) := by
  have hne : mc.brokers ≠ ∅ := by
    induction h with
    | init newBroker env client host port mc hmc =>
      obtain ⟨starter, -, -, hmc2, -, -⟩ :=
        newMetadataCache_cache newBroker env client host port mc hmc
      rw [hmc2]
      exact refreshTopics_brokers_ne_empty _ env [] (seedCache_ne_empty client starter)
    | refreshTopics mc env topics _ ih => exact refreshTopics_brokers_ne_empty mc env topics ih
    | refreshTopic mc env topic _ ih => exact refreshTopics_brokers_ne_empty mc env [topic] ih
  refine ⟨hne, fun pick hnone => hne ((any_eq_none_iff mc pick).mp hnone), fun env topics => ?_⟩
  rcases refreshTopics_cases mc env topics with
    ⟨hempty, -⟩ | ⟨b, e, hany, hsend, hrun⟩ | ⟨b, resp, hany, hsend, hrun⟩
  · exact absurd hempty hne
  · refine ⟨⟨b, hany, ?_⟩, fun hs _ herr => ?_⟩
    · rw [hrun]; simp
    · rw [hrun] at herr
      have he : e = GoError.OutOfBrokers := Option.some.inj herr
      rw [he] at hsend
      exact hs _ _ _ hsend
  · refine ⟨⟨b, hany, ?_⟩, fun _ hc herr => ?_⟩
    · obtain ⟨bs, ts, cs, e, -, -, -, -, hform⟩ := merge_normal_form env.connect resp
      rw [hrun, hform]
      simp
    · rw [hrun] at herr
      rcases merge_err_is_item_failure _ _ _ _ _ herr with ⟨c, -, hcc⟩ | ⟨c, hcode⟩
      · exact hc c hcc
      · exact GoError.noConfusion hcode

/-- Witness of `reachable_registry_ne_empty`: the cache built from the seed
`nodeA` with the example response as the answer to the initial refresh. -/
theorem reachable_registry_ne_empty_witness :
    (∃ mc, (newMetadataCache seedA (envOf respX) "c" "seed.example" 9092).cache = some mc ∧
      Reachable mc ∧ mc.brokers ≠ ∅ ∧ mc.any 0 = some node2) :=
  have hr : Reachable ((seedCache "c" nodeA).refreshTopics (envOf respX) []).mc :=
    Reachable.init seedA (envOf respX) "c" "seed.example" 9092 _ rfl
  ⟨_, rfl, hr, (reachable_registry_ne_empty _ hr).1, rfl⟩

/-- Storing brokers under their ids keeps every entry under its own id. -/
theorem keyIsId_registerAll (bs : List Broker) (brokers : BrokerMap) (h : KeyIsId brokers) :
    KeyIsId (registerAll bs brokers) := by
  intro k b hk
  rcases lookup_foldl_insert (fun b : Broker => b.id) (fun b => b) bs brokers k b hk with
    ⟨x, -, hid, hx⟩ | hold
  · have hx2 : x = b := hx
    rw [← hx2]
    exact hid
  · exact h k b hold

/-- A refresh keeps every registry entry under its own id. -/
theorem refreshTopics_keyIsId (mc : metadataCache) (env : Env) (topics : List String)
    (h : KeyIsId mc.brokers) : KeyIsId (mc.refreshTopics env topics).mc.brokers := by
  rcases refreshTopics_cases mc env topics with
    ⟨-, hrun⟩ | ⟨b, e, -, -, hrun⟩ | ⟨b, resp, -, -, hrun⟩
  · rw [hrun]; exact h
  · rw [hrun]; exact h
  · obtain ⟨bs, ts, cs, e, -, -, -, -, hform⟩ := merge_normal_form env.connect resp
    rw [hrun, hform]
    exact keyIsId_registerAll bs mc.brokers h

/-- C19: in every cache state reachable from `newMetadataCache` by calls of
`refreshTopics` (whatever they return), every registry entry is stored under
the key equal to its own id; every key of the registry has a broker and every
key of the leadership table has a partition map (entries are never `nil`). -/
theorem reachable_key_is_id (mc : metadataCache) (h : Reachable mc) :
    KeyIsId mc.brokers ∧
    (∀ k, k ∈ mc.brokers → ∃ b, mc.brokers.lookup k = some b ∧ b.id = k) ∧
    (∀ n, n ∈ mc.leaders → ∃ m, mc.leaders.lookup n = some m) := by
  have hkey : KeyIsId mc.brokers := by
    induction h with
    | init newBroker env client host port mc hmc =>
      obtain ⟨starter, -, -, hmc2, -, -⟩ :=
        newMetadataCache_cache newBroker env client host port mc hmc
      rw [hmc2]
      refine refreshTopics_keyIsId _ env [] ?_
      exact keyIsId_registerAll [starter] ∅ (fun k b hk => by
        rw [AList.lookup_empty] at hk
        exact Option.noConfusion hk)
    | refreshTopics mc env topics _ ih => exact refreshTopics_keyIsId mc env topics ih
    | refreshTopic mc env topic _ ih => exact refreshTopics_keyIsId mc env [topic] ih
  refine ⟨hkey, fun k hk => ?_, fun n hn => ?_⟩
  · obtain ⟨b, hb⟩ := Option.isSome_iff_exists.mp (AList.lookup_isSome.mpr hk)
    exact ⟨b, hb, hkey k b hb⟩
  · exact Option.isSome_iff_exists.mp (AList.lookup_isSome.mpr hn)

/-- Witness of `reachable_key_is_id`: the cache built from the seed `nodeA`
with the example response holds `nodeA` under 1 and node 2 under 2. -/
theorem reachable_key_is_id_witness :
    (∃ mc, (newMetadataCache seedA (envOf respX) "c" "seed.example" 9092).cache = some mc ∧
      Reachable mc ∧ KeyIsId mc.brokers ∧ mc.brokers.lookup 1 = some nodeA ∧
      mc.brokers.lookup 2 = some node2) :=
  have hr : Reachable ((seedCache "c" nodeA).refreshTopics (envOf respX) []).mc :=
    Reachable.init seedA (envOf respX) "c" "seed.example" 9092 _ rfl
  ⟨_, rfl, hr, (reachable_key_is_id _ hr).1, rfl, rfl⟩

/-! ## A failed send -/

/-- C15: with a registry that is not empty, when the send to the chosen broker
fails with the error `e`, `refreshTopics` returns exactly `e`, the cache
(registry and leadership table) is unchanged, and after the send nothing else
happened: no exclusive lock, no connect. -/
theorem refreshTopics_send_error (mc : metadataCache) (env : Env) (topics : List String)
    (e : GoError) (hne : mc.brokers ≠ ∅)
    (hsend : ∀ b, mc.any env.pick = some b → env.send b mc.client topics = Except.error e) :
    (mc.refreshTopics env topics).err = some e ∧
    (mc.refreshTopics env topics).mc = mc ∧
    (mc.refreshTopics env topics).mc.brokers = mc.brokers ∧
    (mc.refreshTopics env topics).mc.leaders = mc.leaders ∧
    (∃ b, mc.any env.pick = some b ∧ (mc.refreshTopics env topics).trace =
      [Event.RLock, Event.RUnlock, Event.Send b mc.client topics]) ∧
    (∀ c, Event.Connect c ∉ (mc.refreshTopics env topics).trace) ∧
    Event.Lock ∉ (mc.refreshTopics env topics).trace := by
  rcases refreshTopics_cases mc env topics with
    ⟨hempty, -⟩ | ⟨b, e2, hany, hs, hrun⟩ | ⟨b, resp, hany, hs, hrun⟩
  · exact absurd hempty hne
  · have he : e2 = e := by
      have h := hsend b hany
      rw [hs] at h
      exact Except.error.inj h
    subst he
    rw [hrun]
    refine ⟨rfl, rfl, rfl, rfl, ⟨b, hany, rfl⟩, fun c hc => ?_, fun hl => ?_⟩
    · simp at hc
    · simp at hl
  · have h := hsend b hany
    rw [hs] at h
    exact Except.noConfusion h

/-- Witness of `refreshTopics_send_error`: the example state in an environment
whose sends fail. -/
theorem refreshTopics_send_error_witness :
    exOrders.brokers ≠ ∅ ∧
    (∀ b, exOrders.any envDown.pick = some b →
      envDown.send b exOrders.client [] = Except.error (GoError.Network "EOF")) ∧
    (exOrders.refreshTopics envDown []).err = some (GoError.Network "EOF") ∧
    (exOrders.refreshTopics envDown []).mc = exOrders :=
  have h1 : exOrders.brokers ≠ ∅ := ne_empty_of_lookup (k := 1) (v := nodeA) rfl
  have h2 : ∀ b, exOrders.any envDown.pick = some b →
      envDown.send b exOrders.client [] = Except.error (GoError.Network "EOF") :=
    fun _ _ => rfl
  have h := refreshTopics_send_error exOrders envDown [] (GoError.Network "EOF") h1 h2
  ⟨h1, h2, h.1, h.2.1⟩

/-! ## Locks held during network calls -/

/-- The contexts of a run of connects. -/
theorem ioContexts_connects (r w : Nat) (cs : List Broker) (rest : List Event) :
    ioContexts r w (cs.map Event.Connect ++ rest) =
      cs.map (fun c => (Event.Connect c, r, w)) ++ ioContexts r w rest := by
  induction cs with
  | nil => rfl
  | cons c cs ih =>
    show (Event.Connect c, r, w) :: ioContexts r w (cs.map Event.Connect ++ rest) = _
    rw [ih]
    rfl

/-- C16, as stated, fails: in the refresh of the example state with the example
response, the connect to node 2 is made while the calling thread holds the
exclusive lock. -/
theorem refreshTopics_connect_under_lock_counterexample :
    (exOrders.refreshTopics (envOf respX) []).trace =
      [Event.RLock, Event.RUnlock, Event.Send nodeA "c" [], Event.Lock, Event.Connect node2,
        Event.Unlock] ∧
    (Event.Connect node2, 0, 1) ∈
      ioContexts 0 0 (exOrders.refreshTopics (envOf respX) []).trace ∧
    ¬ (∀ x ∈ ioContexts 0 0 (exOrders.refreshTopics (envOf respX) []).trace,
        x.2 = (0, 0)) := by
  have hctx : ioContexts 0 0 (exOrders.refreshTopics (envOf respX) []).trace =
      [(Event.Send nodeA "c" [], 0, 0), (Event.Connect node2, 0, 1)] := rfl
  refine ⟨rfl, ?_, fun h => ?_⟩
  · rw [hctx]
    exact List.mem_cons_of_mem _ (List.mem_singleton.mpr rfl)
  · have h2 := h (Event.Connect node2, 0, 1)
      (by rw [hctx]; exact List.mem_cons_of_mem _ (List.mem_singleton.mpr rfl))
    exact absurd h2 (by decide)

/-- C16, amended: in every execution of `refreshTopics` the metadata send is
made while the calling thread holds neither the shared nor the exclusive lock,
and every connect to a reported node is made while it holds the exclusive lock
(and not the shared one): the exclusive lock is held around the connects and
the writes of the merge, and is released on return.  A lookup accessor takes
and releases the shared lock only and makes no network call. -/
theorem refreshTopics_lock_discipline (mc : metadataCache) (env : Env) (topics : List String) :
    (∀ x ∈ ioContexts 0 0 (mc.refreshTopics env topics).trace,
      (∀ b c ts, x.1 = Event.Send b c ts → x.2 = (0, 0)) ∧
      (∀ b, x.1 = Event.Connect b → x.2 = (0, 1))) ∧
    (∃ rest, (mc.refreshTopics env topics).trace = accessorEvents ++ rest ∧
      (rest = [] ∨ (∃ b, rest = [Event.Send b mc.client topics]) ∨
        ∃ (b : Broker) (cs : List Broker),
          rest = Event.Send b mc.client topics :: Event.Lock ::
            (cs.map Event.Connect ++ [Event.Unlock]))) ∧
    ioContexts 0 0 accessorEvents = [] ∧ Event.Lock ∉ accessorEvents := by
  refine ⟨?_, ?_, rfl, by decide⟩
  swap
  · rcases refreshTopics_cases mc env topics with
      ⟨-, hrun⟩ | ⟨b, e, -, -, hrun⟩ | ⟨b, resp, -, -, hrun⟩
    · exact ⟨[], by rw [hrun]; rfl, Or.inl rfl⟩
    · exact ⟨_, by rw [hrun]; rfl, Or.inr (Or.inl ⟨b, rfl⟩)⟩
    · obtain ⟨bs, ts, cs, e, -, -, -, -, hform⟩ := merge_normal_form env.connect resp
      refine ⟨_, ?_, Or.inr (Or.inr ⟨b, cs, rfl⟩)⟩
      rw [hrun, hform]
      simp [accessorEvents]
  rcases refreshTopics_cases mc env topics with
    ⟨-, hrun⟩ | ⟨b, e, -, -, hrun⟩ | ⟨b, resp, -, -, hrun⟩
  · rw [hrun]
    intro x hx
    simp [ioContexts] at hx
  · rw [hrun]
    intro x hx
    simp only [ioContexts, List.mem_singleton] at hx
    subst hx
    exact ⟨fun _ _ _ _ => rfl, fun _ h => Event.noConfusion h⟩
  · obtain ⟨bs, ts, cs, e, -, -, -, -, hform⟩ := merge_normal_form env.connect resp
    rw [hrun, hform]
    have htrace : ioContexts 0 0 ([Event.RLock, Event.RUnlock, Event.Send b mc.client topics] ++
        [Event.Lock] ++ cs.map Event.Connect ++ [Event.Unlock]) =
        (Event.Send b mc.client topics, 0, 0) :: cs.map (fun c => (Event.Connect c, 0, 1)) := by
      have h0 : [Event.RLock, Event.RUnlock, Event.Send b mc.client topics] ++
          [Event.Lock] ++ cs.map Event.Connect ++ [Event.Unlock] =
          Event.RLock :: Event.RUnlock :: Event.Send b mc.client topics :: Event.Lock ::
            (cs.map Event.Connect ++ [Event.Unlock]) := by simp
      rw [h0]
      show (Event.Send b mc.client topics, 0, 0) ::
        ioContexts 0 1 (cs.map Event.Connect ++ [Event.Unlock]) = _
      rw [ioContexts_connects]
      simp [ioContexts]
    simp only [htrace]
    intro x hx
    rcases List.mem_cons.mp hx with rfl | hx
    · exact ⟨fun _ _ _ _ => rfl, fun _ h => Event.noConfusion h⟩
    · obtain ⟨c, -, rfl⟩ := List.mem_map.mp hx
      exact ⟨fun _ _ _ h => Event.noConfusion h, fun _ _ => rfl⟩

/-! ## Refresh followed by lookup -/

/-- In a list whose keys are distinct, no element after an element carries the
key of that element. -/
theorem ne_of_nodup_map {α β : Type} (f : α → β) (pre post : List α) (x : α)
    (h : ((pre ++ x :: post).map f).Nodup) : ∀ y ∈ post, f y ≠ f x := by
  intro y hy hfy
  rw [List.map_append, List.map_cons] at h
  have h2 := (List.nodup_cons.mp (List.Nodup.of_append_right h)).1
  exact h2 (hfy ▸ List.mem_map_of_mem f hy)

/-- C17: with a registry that is not empty and a response without error codes
whose nodes all connect, whose topic names are distinct and whose partition ids
are distinct within each topic, `refreshTopics` succeeds, and afterwards, for
every topic `t` and partition `p` listed in the response with a leader id other
than -1 that is the id of a node listed in the response, `leader t.Name p.Id`
returns the node of the response with that id (the last one listed with it),
and the registry holds that node under the leader id. -/
theorem refreshTopics_then_leader (mc : metadataCache) (env : Env) (topics : List String)
    (resp : MetadataResponse) (hne : mc.brokers ≠ ∅) (hrecv : Received mc env topics resp)
    (hconn : AllConnect env.connect resp.Brokers) (hok : TopicsOk resp.Topics)
    (hnames : (resp.Topics.map (fun t => t.Name)).Nodup)
    (hids : ∀ t ∈ resp.Topics, (t.Partitions.map (fun p => p.Id)).Nodup) :
    (mc.refreshTopics env topics).err = none ∧
    ∀ t ∈ resp.Topics, ∀ p ∈ t.Partitions, p.Leader ≠ -1 →
      (∃ b ∈ resp.Brokers, b.id = p.Leader) →
      ∃ bpre b bpost, resp.Brokers = bpre ++ b :: bpost ∧ b.id = p.Leader ∧
        (∀ c ∈ bpost, c.id ≠ p.Leader) ∧ b ∈ resp.Brokers ∧
        (mc.refreshTopics env topics).mc.leader t.Name p.Id = some b ∧
        (mc.refreshTopics env topics).mc.brokers.lookup p.Leader = some b := by
  obtain ⟨b0, -, hrun⟩ := refreshTopics_eq_merge mc env topics resp hne hrecv
  rw [hrun, merge_of_allConnect _ _ _ _ hconn]
  refine ⟨recordTopics_ok _ _ hok, fun t ht p hp hL hex => ?_⟩
  obtain ⟨pre, post, hl⟩ := List.append_of_mem ht
  obtain ⟨ppre, ppost, hpl⟩ := List.append_of_mem hp
  have hpost : ∀ u ∈ post, u.Name ≠ t.Name := by
    rw [hl] at hnames
    exact ne_of_nodup_map (fun t => t.Name) pre post t hnames
  have hppost : ∀ r ∈ ppost, r.Id ≠ p.Id := by
    have h := hids t ht
    rw [hpl] at h
    exact ne_of_nodup_map (fun p => p.Id) ppre ppost p h
  have htopic : (recordTopics resp.Topics mc.leaders).1.lookup t.Name =
      some (partitionMapOf t.Partitions ∅) := by
    have hok2 := hok
    rw [hl] at hok2 ⊢
    exact recordTopics_lookup_last pre post t mc.leaders hok2 hpost
  have hpart : (partitionMapOf t.Partitions ∅).lookup p.Id = some p.Leader := by
    rw [hpl]
    exact partitionMapOf_lookup_last ppre ppost p ∅ hppost
  obtain ⟨bpre, b, bpost, hbl, hbid, hbpost⟩ :=
    exists_last_occurrence (fun b : Broker => b.id) resp.Brokers p.Leader hex
  have hreg : (registerAll resp.Brokers mc.brokers).lookup p.Leader = some b := by
    rw [hbl, ← hbid]
    exact registerAll_lookup_last bpre bpost b mc.brokers (fun c hc => by
      rw [hbid]; exact hbpost c hc)
  refine ⟨bpre, b, bpost, hbl, hbid, hbpost,
    by rw [hbl]; exact List.mem_append_right _ (List.mem_cons_self _ _), ?_, hreg⟩
  · rw [leader_of_cached _ t.Name p.Id p.Leader _ htopic hpart, if_neg hL]
    exact hreg

/-- Witness of `refreshTopics_then_leader`: after the refresh of the example
state with the example response, `leader "x" 0` is node 2, and node 2 is in the
registry. -/
theorem refreshTopics_then_leader_witness :
    exOrders.brokers ≠ ∅ ∧ Received exOrders (envOf respX) [] respX ∧
    AllConnect (envOf respX).connect respX.Brokers ∧ TopicsOk respX.Topics ∧
    (respX.Topics.map (fun t => t.Name)).Nodup ∧
    (∀ t ∈ respX.Topics, (t.Partitions.map (fun p => p.Id)).Nodup) ∧
    (exOrders.refreshTopics (envOf respX) []).err = none ∧
    (exOrders.refreshTopics (envOf respX) []).mc.leader "x" 0 = some node2 ∧
    (exOrders.refreshTopics (envOf respX) []).mc.brokers.lookup 2 = some node2 :=
  have h1 : exOrders.brokers ≠ ∅ := ne_empty_of_lookup (k := 1) (v := nodeA) rfl
  have h2 : Received exOrders (envOf respX) [] respX := fun _ _ => rfl
  have h3 : AllConnect (envOf respX).connect respX.Brokers := fun _ _ => rfl
  have h4 : TopicsOk respX.Topics := by
    simp [TopicsOk, PartitionsOk, respX]
  have h5 : (respX.Topics.map (fun t => t.Name)).Nodup := by
    simp [respX]
  have h6 : ∀ t ∈ respX.Topics, (t.Partitions.map (fun p => p.Id)).Nodup := by
    simp [respX]
  ⟨h1, h2, h3, h4, h5, h6,
    (refreshTopics_then_leader exOrders (envOf respX) [] respX h1 h2 h3 h4 h5 h6).1, rfl, rfl⟩

/-! ## The exact result of `partitions` -/

/-- C18: `partitions T` is `nil` exactly when `T` has no entry in the
leadership table; when `T` is cached with n partition ids the result is not
`nil`, has length 2·n, is sorted in non-decreasing order and is a permutation
of n zeros followed by the n cached ids; for a topic cached with no partition
it is the empty sequence. -/
theorem partitions_exact (mc : metadataCache) (T : String) :
    (mc.partitions T = none ↔ mc.leaders.lookup T = none) ∧
    ∀ m, mc.leaders.lookup T = some m →
      ∃ r, mc.partitions T = some r ∧ r.length = 2 * m.keys.length ∧
        r.Sorted (fun a b => a ≤ b) ∧
        r.Perm (List.replicate m.keys.length 0 ++ m.keys) ∧
        (m.keys.length = 0 → r = []) := by
  constructor
  · unfold partitions
    cases h : mc.leaders.lookup T <;> simp
  · intro m hm
    refine ⟨partitionsIn m.keys, ?_, ?_, ?_, ?_, ?_⟩
    · unfold partitions
      rw [hm]
    · unfold partitionsIn sortInt32Slice
      rw [List.length_insertionSort, List.length_append, List.length_replicate]
      omega
    · exact List.sorted_insertionSort _ _
    · exact List.perm_insertionSort _ _
    · intro h0
      have hnil : m.keys = [] := List.length_eq_zero.mp h0
      rw [hnil]
      rfl

/-- Witness of `partitions_exact` in the example state: "orders" is cached with
the two partitions 0 and 1 and `partitions` returns four elements. -/
theorem partitions_exact_witness :
    exOrders.leaders.lookup "orders" = some (((∅ : PartitionMap).insert 0 1).insert 1 (-1)) ∧
    exOrders.partitions "orders" = some [0, 0, 0, 1] ∧
    (∃ r, exOrders.partitions "orders" = some r ∧ r.length = 2 * 2 ∧
      r.Sorted (fun a b => a ≤ b) ∧ r.Perm (List.replicate 2 0 ++ [1, 0]) ∧
      ((2 : Nat) = 0 → r = [])) :=
  ⟨rfl, rfl, (partitions_exact exOrders "orders").2 _ rfl⟩

/-! ## The merge is idempotent -/

/-- C20: the merge of a response, with the outcome of each connect fixed,
applied a second time to the cache it produced yields the same registry, the
same leadership table and the same returned error as the first application. -/
theorem merge_idempotent (connect : Broker → Option GoError) (mc : metadataCache)
    (resp : MetadataResponse) (tr tr2 : List Event) :
    (merge connect (merge connect mc resp tr).mc resp tr2).mc.brokers =
      (merge connect mc resp tr).mc.brokers ∧
    (merge connect (merge connect mc resp tr).mc resp tr2).mc.leaders =
      (merge connect mc resp tr).mc.leaders ∧
    (merge connect (merge connect mc resp tr).mc resp tr2).err =
      (merge connect mc resp tr).err ∧
    (merge connect (merge connect mc resp tr).mc resp tr2).mc = (merge connect mc resp tr).mc := by
  obtain ⟨bs, ts, cs, e, hok, -, -, -, hform⟩ := merge_normal_form connect resp
  have hb : registerAll bs (registerAll bs mc.brokers) = registerAll bs mc.brokers :=
    foldl_insert_idem (fun b : Broker => b.id) (fun b => b) bs mc.brokers
  have hl : (recordTopics ts (recordTopics ts mc.leaders).1).1 = (recordTopics ts mc.leaders).1 := by
    rw [recordTopics_ok_eq_foldl ts _ hok, recordTopics_ok_eq_foldl ts _ hok]
    exact foldl_insert_idem (fun t : TopicMetadata => t.Name)
      (fun t => partitionMapOf t.Partitions ∅) ts mc.leaders
  rw [hform mc tr, hform _ tr2]
  simp only [hb, hl]
  exact ⟨trivial, trivial, trivial, trivial⟩

/-! ## Lookups on reachable states -/

/-- The example state is reachable: it is the cache `newMetadataCache` returns
for the seed `nodeA` when the initial refresh is answered with `respOrders`. -/
theorem exOrders_reachable : Reachable exOrders :=
  Reachable.init seedA (envOf respOrders) "c" "seed.example" 9092 exOrders rfl

/-- Every reachable state stores each broker under its own id. -/
theorem keyIsId_of_reachable (mc : metadataCache) (h : Reachable mc) : KeyIsId mc.brokers := by
  induction h with
  | init newBroker env client host port mc hmc =>
    obtain ⟨starter, -, -, hmc2, -, -⟩ :=
      newMetadataCache_cache newBroker env client host port mc hmc
    rw [hmc2]
    refine refreshTopics_keyIsId _ env [] ?_
    exact keyIsId_registerAll [starter] ∅ (fun k b hk => by
      rw [AList.lookup_empty] at hk
      exact Option.noConfusion hk)
  | refreshTopics mc env topics _ ih => exact refreshTopics_keyIsId mc env topics ih
  | refreshTopic mc env topic _ ih => exact refreshTopics_keyIsId mc env [topic] ih

/-- The registry of every reachable state is not empty. -/
theorem brokers_ne_empty_of_reachable (mc : metadataCache) (h : Reachable mc) :
    mc.brokers ≠ ∅ := by
  induction h with
  | init newBroker env client host port mc hmc =>
    obtain ⟨starter, -, -, hmc2, -, -⟩ :=
      newMetadataCache_cache newBroker env client host port mc hmc
    rw [hmc2]
    exact refreshTopics_brokers_ne_empty _ env [] (seedCache_ne_empty client starter)
  | refreshTopics mc env topics _ ih => exact refreshTopics_brokers_ne_empty mc env topics ih
  | refreshTopic mc env topic _ ih => exact refreshTopics_brokers_ne_empty mc env [topic] ih

/-- C4: for every cache state, `any` returns `nil` exactly when the registry is
empty, and when the registry is not empty the returned broker is a value of the
registry; in every cache state the code builds (every state reachable from
`newMetadataCache`, and more generally every state that stores each broker
under its own id, as lines 27 and 105 do) the id of the returned broker is a
key of the registry, and the broker is the entry stored under it. -/
theorem any_spec (mc : metadataCache) (pick : Nat) :
    (mc.any pick = none ↔ mc.brokers = ∅) ∧
    (mc.brokers ≠ ∅ → ∃ b, mc.any pick = some b ∧ ∃ k, mc.brokers.lookup k = some b) ∧
    (Reachable mc → mc.brokers ≠ ∅ ∧ ∃ b, mc.any pick = some b ∧
      (∃ k, mc.brokers.lookup k = some b) ∧ b.id ∈ mc.brokers ∧
      mc.brokers.lookup b.id = some b) ∧
    (KeyIsId mc.brokers → mc.brokers ≠ ∅ → ∃ b, mc.any pick = some b ∧
      (∃ k, mc.brokers.lookup k = some b) ∧ b.id ∈ mc.brokers ∧
      mc.brokers.lookup b.id = some b) := by
  have hval : mc.brokers ≠ ∅ → ∃ b, mc.any pick = some b ∧ ∃ k, mc.brokers.lookup k = some b := by
    intro hne
    have hsome : mc.any pick ≠ none := fun h => hne ((any_eq_none_iff mc pick).mp h)
    obtain ⟨b, hb⟩ := Option.ne_none_iff_exists'.mp hsome
    exact ⟨b, hb, any_mem_registry mc pick b hb⟩
  have hkey : KeyIsId mc.brokers → mc.brokers ≠ ∅ → ∃ b, mc.any pick = some b ∧
      (∃ k, mc.brokers.lookup k = some b) ∧ b.id ∈ mc.brokers ∧
      mc.brokers.lookup b.id = some b := by
    intro hwf hne
    obtain ⟨b, hb, k, hk⟩ := hval hne
    have hid : b.id = k := hwf k b hk
    subst hid
    exact ⟨b, hb, ⟨b.id, hk⟩, AList.lookup_isSome.mp (by rw [hk]; rfl), hk⟩
  refine ⟨any_eq_none_iff mc pick, hval, fun hr => ?_, hkey⟩
  have hne : mc.brokers ≠ ∅ := brokers_ne_empty_of_reachable mc hr
  exact ⟨hne, hkey (keyIsId_of_reachable mc hr) hne⟩

/-- Witness of `any_spec` in the example state, which is reachable and whose
registry is not empty: `any` returns `nodeA`, stored under its id 1. -/
theorem any_spec_witness :
    Reachable exOrders ∧ exOrders.brokers ≠ ∅ ∧ exOrders.any 3 = some nodeA ∧
    (∃ b, exOrders.any 3 = some b ∧ (∃ k, exOrders.brokers.lookup k = some b) ∧
      b.id ∈ exOrders.brokers ∧ exOrders.brokers.lookup b.id = some b) ∧
    (exEmpty.any 3 = none ↔ exEmpty.brokers = ∅) :=
  have h := (any_spec exOrders 3).2.2.1 exOrders_reachable
  ⟨exOrders_reachable, h.1, rfl, h.2, (any_spec exEmpty 3).1⟩

/-- C13, as stated, fails: the example state is reachable from a successful
`newMetadataCache`, its registry is not empty, and when the send of a refresh
returns the error `OutOfBrokers`, line 92 returns it: the refresh returns
`OutOfBrokers`. -/
theorem reachable_refresh_returns_out_of_brokers_counterexample :
    Reachable exOrders ∧ exOrders.brokers ≠ ∅ ∧ exOrders.any envOutOfBrokers.pick = some nodeA ∧
    envOutOfBrokers.send nodeA exOrders.client [] = Except.error GoError.OutOfBrokers ∧
    (exOrders.refreshTopics envOutOfBrokers []).err = some GoError.OutOfBrokers ∧
    (exOrders.refreshTopics envOutOfBrokers []).trace =
      [Event.RLock, Event.RUnlock, Event.Send nodeA "c" []] ∧
    ¬ (∀ (mc : metadataCache) (env : Env) (topics : List String), Reachable mc →
        (mc.refreshTopics env topics).err ≠ some GoError.OutOfBrokers) := by
  refine ⟨exOrders_reachable, ne_empty_of_lookup (k := 1) (v := nodeA) rfl, rfl, rfl, rfl, rfl,
    fun h => ?_⟩
  exact h exOrders envOutOfBrokers [] exOrders_reachable rfl

end kafka
